import Mathlib

/-!
Shallow embedding of the go-swagger spec validator
(`internal/validate/spec.go`) and proofs about its checks.

Conventions of the embedding:
* Go maps are modelled as association lists; the iteration order of a map
  is the list order.
* Go `panic` and exhaustion of the recursion budget are modelled by the
  `Halt` error of an `Except`.
* Diagnostics (`errors.New(code, format, args...)`) are modelled by the
  structured type `Err`, one constructor per call site template; the
  rendered message of a diagnostic is recovered by `errMessage`.
* External collaborators that the source only calls (the JSON reference
  resolver of the `spec` package, the `Document` accessors, the regex
  engine, the generic JSON-schema validator) are modelled from the spec,
  as documented on each such definition.
-/

deriving instance DecidableEq for Except

namespace GoSwagger

/-- Abnormal outcomes of a Go computation: a `panic`, or exhaustion of the
fuel that bounds the unbounded recursion of the source. -/
inductive Halt where
  | panicked
  | fuelOut
  deriving DecidableEq, Repr

/-- One diagnostic, as produced by an `errors.New(422/500, format, args...)`
call in `spec.go`: one constructor per call-site template, carrying the
format arguments. -/
inductive Err where
  | jsonUnmarshal (msg : String)
  | refExpansion (msg : String)
  | duplicateOpId (id : String) (n : Nat)
  | circularAncestry (name : String) (ancs : List String)
  | duplicateProps (name : String) (props : List String)
  | collectionParam (param : String) (opId : String)
  | collectionHeader (header : String) (opId : String)
  | collectionSchema (pfx : String) (opId : String)
  | duplicateParamName (name : String) (inLoc : String) (opId : String)
  | moreThanOneBodyParam (opId : String) (accepted : String) (dropped : String)
  | pathOverlap (path : String) (orig : String)
  | pathParamNoDefinition (seg : String)
  | pathParamNotInPath (name : String) (path : String)
  | requiredNotDefined (name : String) (definitionName : String)
  | refNotResolved (pointer : String)
  deriving DecidableEq, Repr

/-- Go's `%q` verb on a string (for names without escape sequences). -/
def goQuote (s : String) : String := "\"" ++ s ++ "\""

/-- Go's `%v` verb on a `[]string`. -/
def goSliceV (l : List String) : String := "[" ++ String.intercalate " " l ++ "]"

/-- The message each diagnostic renders to, following the literal format
strings of `spec.go`. -/
def errMessage : Err → String
  | .jsonUnmarshal m => m
  | .refExpansion m => m
  | .duplicateOpId id n => goQuote id ++ " is defined " ++ toString n ++ " times"
  | .circularAncestry nm ancs =>
      "definition " ++ goQuote nm ++ " has circular ancestry: " ++ goSliceV ancs
  | .duplicateProps nm props =>
      "definition " ++ goQuote nm ++ " contains duplicate properties: " ++ goSliceV props
  | .collectionParam p opId =>
      "param " ++ goQuote p ++ " for " ++ goQuote opId ++ " is a collection without an element type"
  | .collectionHeader h opId =>
      "header " ++ goQuote h ++ " for " ++ goQuote opId ++ " is a collection without an element type"
  | .collectionSchema pfx opId =>
      pfx ++ " for " ++ goQuote opId ++ " is a collection without an element type"
  | .duplicateParamName nm inLoc opId =>
      "duplicate parameter name " ++ goQuote nm ++ " for " ++ goQuote inLoc ++
        " in operation " ++ goQuote opId
  | .moreThanOneBodyParam opId acc dropped =>
      "operation " ++ goQuote opId ++ " has more than 1 body param (accepted: " ++
        goQuote acc ++ ", dropped: " ++ goQuote dropped ++ ")"
  | .pathOverlap path orig => "path " ++ path ++ " overlaps with " ++ orig
  | .pathParamNoDefinition seg =>
      "path param " ++ goQuote seg ++ " has no parameter definition"
  | .pathParamNotInPath nm path =>
      "path param " ++ goQuote nm ++ " is not present in path " ++ goQuote path
  | .requiredNotDefined nm d =>
      goQuote nm ++ " is present in required but not defined as property in defintion " ++
        goQuote d
  | .refNotResolved ptr => "could not resolve reference " ++ ptr

/-- `spec.Schema`, restricted to the fields `spec.go` reads.
Modelled from the spec (§3): a recursive node with `ref`, `type`,
`allOf`, `properties`, `patternProperties`, `additionalProperties`
(tri-state: absent, boolean `allows`, or schema), `items` (one schema or
an ordered sequence), `additionalItems` and `required`.
`additionalProperties`/`additionalItems` are `Option (Bool × Option Schema)`
mirroring Go's `*SchemaOrBool` (`Allows`, `Schema`); `items` is
`Option (Option Schema × List Schema)` mirroring `*SchemaOrArray`
(`Schema`, `Schemas`). -/
inductive Schema where
  | mk (ref : Option String) (type : List String) (allOf : List Schema)
       (properties : List (String × Schema))
       (patternProperties : List (String × Schema))
       (additionalProperties : Option (Bool × Option Schema))
       (items : Option (Option Schema × List Schema))
       (additionalItems : Option (Bool × Option Schema))
       (required : List String)

def Schema.ref : Schema → Option String
  | .mk r _ _ _ _ _ _ _ _ => r

def Schema.type : Schema → List String
  | .mk _ t _ _ _ _ _ _ _ => t

def Schema.allOf : Schema → List Schema
  | .mk _ _ a _ _ _ _ _ _ => a

def Schema.properties : Schema → List (String × Schema)
  | .mk _ _ _ p _ _ _ _ _ => p

def Schema.patternProperties : Schema → List (String × Schema)
  | .mk _ _ _ _ p _ _ _ _ => p

def Schema.additionalProperties : Schema → Option (Bool × Option Schema)
  | .mk _ _ _ _ _ ap _ _ _ => ap

def Schema.items : Schema → Option (Option Schema × List Schema)
  | .mk _ _ _ _ _ _ it _ _ => it

def Schema.additionalItems : Schema → Option (Bool × Option Schema)
  | .mk _ _ _ _ _ _ _ ai _ => ai

def Schema.required : Schema → List String
  | .mk _ _ _ _ _ _ _ _ r => r

/-- The all-absent schema (`spec.Schema{}`). -/
def Schema.empty : Schema := .mk none [] [] [] [] none none none []

/-- The JSON pointer of a definition, `#/definitions/<name>`. -/
def defPointer (name : String) : String := "#/definitions/" ++ name

/-- Modelled from the spec: the external reference resolver
(`spec.ResolveRef(root, ref)`) dereferences a JSON pointer against the
root document, returning the pointed schema or a resolution failure
(§2.B, §6).  For the `#/definitions/<name>` pointers the validator
follows, this is a lookup in the document's definitions. -/
def resolveSchemaRef (defs : List (String × Schema)) (r : String) : Option Schema :=
  (defs.find? (fun kv => defPointer kv.1 == r)).map (·.2)

/-- Set-insertion into the association-list model of a Go
`map[string]struct{}`. -/
def insertStr (s : String) (set : List String) : List String :=
  if set.contains s then set else set ++ [s]

/-- The `for _, chld := range schc.AllOf` loop of
`validateCircularAncestry` (spec.go:202-208): recurse (the recursive
call is the argument `f`) on each child, returning as soon as a cycle
witness appears. -/
def vcaFold (f : String → Schema → List String → Except Halt (List String × List String)) :
    String → List Schema → List String → Except Halt (List String × List String)
  | _, [], knowns => .ok ([], knowns)
  | nm, chld :: rest, knowns =>
    match f nm chld knowns with
    | .error h => .error h
    | .ok (ancs, kn) =>
      if ancs.isEmpty then vcaFold f nm rest kn
      else .ok (ancs, kn)

/-- `SpecValidator.validateCircularAncestry` (spec.go:180-212): walk the
`allOf` spine; crossing a `ref` resolves it (panic on failure), switches
the schema name to the pointer string and records it in `knowns`; a name
found in `knowns` is returned as a cycle witness and stops the walk.
The mutable `knowns` map is threaded through the result; the recursion
is bounded by `fuel`. -/
def vca (defs : List (String × Schema)) :
    Nat → String → Schema → List String → Except Halt (List String × List String)
  | 0, _, _, _ => .error .fuelOut
  | fuel + 1, nm, sch, knowns =>
    match sch.ref with
    | some r =>
      match resolveSchemaRef defs r with
      | none => .error .panicked
      | some schc =>
        let kn := insertStr r knowns
        if kn.contains r then .ok ([r], kn)
        else if schc.allOf.isEmpty then .ok ([], kn)
        else vcaFold (vca defs fuel) r schc.allOf kn
    | none =>
      if knowns.contains nm then .ok ([nm], knowns)
      else if sch.allOf.isEmpty then .ok ([], knowns)
      else vcaFold (vca defs fuel) nm sch.allOf knowns

/-- A duplicated property name together with the schema name it was
re-declared in (`dupProp` of spec.go:109-112). -/
structure DupProp where
  name : String
  definitionName : String
  deriving DecidableEq, Repr

/-- The `for k := range schc.Properties` loop of
`validateSchemaPropertyNames`: names already in `knowns` are reported as
duplicates, new names are added. -/
def gatherProps (schn : String) :
    List (String × Schema) → List String → List DupProp × List String
  | [], knowns => ([], knowns)
  | (k, _) :: rest, knowns =>
    if knowns.contains k then
      let (d, kn) := gatherProps schn rest knowns
      (⟨k, schn⟩ :: d, kn)
    else
      gatherProps schn rest (knowns ++ [k])

/-- The `for _, chld := range schc.AllOf` loop of
`validateSchemaPropertyNames` (spec.go:161-166): recurse (the recursive
call is the argument `f`) on each child, concatenating the reported
duplicates and threading `knowns`. -/
def vspnFold (f : String → Schema → List String → Except Halt (List DupProp × List String)) :
    String → List Schema → List String → Except Halt (List DupProp × List String)
  | _, [], knowns => .ok ([], knowns)
  | nm, chld :: rest, knowns =>
    match f nm chld knowns with
    | .error h => .error h
    | .ok (dups, kn) =>
      match vspnFold f nm rest kn with
      | .error h => .error h
      | .ok (dups', kn') => .ok (dups ++ dups', kn')

/-- `SpecValidator.validateSchemaPropertyNames` (spec.go:146-178): walk
the `allOf` spine (crossing `ref`s, panicking when one fails to
resolve); at each leaf record the property names into the shared
`knowns` map, reporting re-insertions.  The source carries no
visited-pointer set, so the recursion is bounded by `fuel`. -/
def vspn (defs : List (String × Schema)) :
    Nat → String → Schema → List String → Except Halt (List DupProp × List String)
  | 0, _, _, _ => .error .fuelOut
  | fuel + 1, nm, sch, knowns =>
    match sch.ref with
    | some r =>
      match resolveSchemaRef defs r with
      | none => .error .panicked
      | some schc =>
        if schc.allOf.isEmpty then .ok (gatherProps r schc.properties knowns)
        else vspnFold (vspn defs fuel) r schc.allOf knowns
    | none =>
      if sch.allOf.isEmpty then .ok (gatherProps nm sch.properties knowns)
      else vspnFold (vspn defs fuel) nm sch.allOf knowns

/-- The `for k, sch := range s.spec.Spec().Definitions` loop of
`validateDuplicatePropertyNames` (spec.go:114-144): definitions without
`allOf` are skipped; a non-empty ancestry witness adds one circular
error and returns the result built so far; otherwise the duplicate
property names are gathered and reported. -/
def vdpnLoop (defs : List (String × Schema)) (fuel : Nat) :
    List (String × Schema) → Except Halt (List Err)
  | [] => .ok []
  | (k, sch) :: rest =>
    if sch.allOf.isEmpty then vdpnLoop defs fuel rest
    else
      match vca defs fuel k sch [defPointer k] with
      | .error h => .error h
      | .ok (ancs, _) =>
        if ancs.isEmpty then
          match vspn defs fuel k sch [] with
          | .error h => .error h
          | .ok (dups, _) =>
            let here :=
              if dups.isEmpty then []
              else [Err.duplicateProps k (dups.map (fun d => d.definitionName ++ "." ++ d.name))]
            match vdpnLoop defs fuel rest with
            | .error h => .error h
            | .ok es => .ok (here ++ es)
        else .ok [Err.circularAncestry k ancs]

/-- `SpecValidator.validateDuplicatePropertyNames` (spec.go:114-144). -/
def validateDuplicatePropertyNames (defs : List (String × Schema)) (fuel : Nat) :
    Except Halt (List Err) :=
  vdpnLoop defs fuel defs

/-- `spec.Items` restricted to the fields `spec.go` reads.  Modelled from
the spec (§3): the element description of a primitive array parameter or
header, with its own `type` and optional nested `items`. -/
inductive PItems where
  | mk (type : String) (items : Option PItems)

def PItems.type : PItems → String
  | .mk t _ => t

def PItems.items : PItems → Option PItems
  | .mk _ i => i

/-- Modelled from the spec: `Items.TypeName()` returns the declared type
of the element description. -/
def PItems.typeName (i : PItems) : String := i.type

/-- Modelled from the spec: `Items.ItemsTypeName()` returns the declared
type of the nested element description, or `""` when there is none. -/
def PItems.itemsTypeName : PItems → String
  | .mk _ none => ""
  | .mk _ (some c) => c.type

/-- `spec.Parameter` restricted to the fields `spec.go` reads.  Modelled
from the spec (§3): `name`, `in`, a declared primitive `type`, optional
`items` (primitive arrays), optional `schema` (body parameters) and an
optional `ref`. -/
structure Parameter where
  name : String
  In : String
  type : String
  items : Option PItems
  schema : Option Schema
  ref : Option String

/-- Modelled from the spec: `Parameter.TypeName()` returns the declared
primitive type. -/
def Parameter.typeName (p : Parameter) : String := p.type

/-- Modelled from the spec: `Parameter.ItemsTypeName()` returns the
declared type of `items`, or `""` when there is none. -/
def Parameter.itemsTypeName (p : Parameter) : String :=
  match p.items with
  | some i => i.type
  | none => ""

/-- `spec.Header` restricted to the fields `spec.go` reads (its declared
`type` and optional `items`, read through `TypeName`/`ItemsTypeName`). -/
structure Header where
  type : String
  items : Option PItems

/-- Modelled from the spec: `Header.TypeName()`. -/
def Header.typeName (h : Header) : String := h.type

/-- Modelled from the spec: `Header.ItemsTypeName()`. -/
def Header.itemsTypeName (h : Header) : String :=
  match h.items with
  | some i => i.type
  | none => ""

/-- `spec.Response` restricted to the fields `spec.go` reads. -/
structure Response where
  ref : Option String
  schema : Option Schema
  headers : List (String × Header)

/-- `spec.Responses` restricted to the fields `spec.go` reads. -/
structure Responses where
  default : Option Response
  statusCodeResponses : List (Nat × Response)

/-- `spec.Operation` restricted to the fields `spec.go` reads. -/
structure Operation where
  id : String
  parameters : List Parameter
  responses : Option Responses

/-- Modelled from the spec (§3): the parsed `Document`, exposing
`operations()` (method → path → operation), `paramsFor(method, path)`
(the fully merged parameter list), `operationIDs()`, the reusable
`definitions` and the `#/parameters/...` targets the parameter resolver
dereferences. -/
structure Document where
  definitions : List (String × Schema)
  parameters : List (String × Parameter)
  operations : List (String × List (String × Operation))
  paramsFor : List ((String × String) × List Parameter)
  operationIDs : List String

/-- Modelled from the spec: `Document.paramsFor(method, path)`. -/
def Document.paramsForLookup (doc : Document) (method path : String) : List Parameter :=
  ((doc.paramsFor.find? (fun kv => kv.1.1 == method && kv.1.2 == path)).map (·.2)).getD []

/-- Modelled from the spec: the pointer `Get` used on parameter `ref`s
(`pr.Ref.GetPointer().Get(sw)`), a dereference against the document's
reusable parameters. -/
def resolveParamRef (doc : Document) (r : String) : Option Parameter :=
  (doc.parameters.find? (fun kv => ("#/parameters/" ++ kv.1) == r)).map (·.2)

mutual

/-- `SpecValidator.validateSchemaItems` (spec.go:271-290): a schema whose
type contains `"array"` must carry a non-empty `items`; the check then
descends into `Items.Schema` (taking precedence) or each of
`Items.Schemas`, returning the first error found. -/
def validateSchemaItems (pfx opId : String) : Schema → Option Err
  | .mk _ ty _ _ _ _ items _ _ =>
    if !ty.contains "array" then none
    else
      match items with
      | none => some (.collectionSchema pfx opId)
      | some (osch, schemas) =>
        match osch with
        | some s => validateSchemaItemsList pfx opId [s]
        | none =>
          if schemas.length == 0 then some (.collectionSchema pfx opId)
          else validateSchemaItemsList pfx opId schemas

/-- The `for _, sch := range schemas` loop of `validateSchemaItems`. -/
def validateSchemaItemsList (pfx opId : String) : List Schema → Option Err
  | [] => none
  | s :: rest =>
    match validateSchemaItems pfx opId s with
    | some e => some e
    | none => validateSchemaItemsList pfx opId rest

end

/-- The `for items.TypeName() == "array"` loop of `validateItems`
(spec.go:229-235): walk nested `items` of a primitive (non-body)
parameter while the type stays `"array"`, reporting a missing element
type. -/
def primItemsLoop (name opId : String) : PItems → List Err
  | .mk ty items =>
    if ty == "array" then
      match items with
      | none => [.collectionParam name opId]
      | some c =>
        if c.type == "" then [.collectionParam name opId]
        else primItemsLoop name opId c
    else []

/-- The per-parameter body of `validateItems` (spec.go:222-241): an
`"array"` parameter without an element type is reported; otherwise
non-body parameters walk their nested `items`, and body parameters
check `*param.Schema` (a Go nil dereference — modelled as a panic —
when the body parameter carries no schema). -/
def paramItemsErrors (param : Parameter) (opId : String) : Except Halt (List Err) :=
  if param.typeName == "array" && param.itemsTypeName == "" then
    .ok [.collectionParam param.name opId]
  else if param.In != "body" then
    .ok (match param.items with
         | some it => primItemsLoop param.name opId it
         | none => [])
  else
    match param.schema with
    | none => .error .panicked
    | some sch =>
      .ok (validateSchemaItems ("body param " ++ goQuote param.name) opId sch).toList

/-- The per-response body of `validateItems` (spec.go:254-265): `"array"`
headers must declare an element type, and the response schema is checked
through `validateSchemaItems`. -/
def respItemsErrors (resp : Response) (opId : String) : List Err :=
  (resp.headers.filterMap (fun kv =>
    if kv.2.typeName == "array" && kv.2.itemsTypeName == "" then
      some (.collectionHeader kv.1 opId)
    else none))
  ++ (match resp.schema with
      | some sch => (validateSchemaItems "response body" opId sch).toList
      | none => [])

/-- The response collection of `validateItems` (spec.go:244-252): the
default response, then the status-coded responses. -/
def responsesOf (op : Operation) : List Response :=
  match op.responses with
  | none => []
  | some rs =>
    (match rs.default with
     | some d => [d]
     | none => []) ++ rs.statusCodeResponses.map (·.2)

/-- The `for _, param := range s.spec.ParamsFor(method, path)` loop of
`validateItems`. -/
def itemsParamsLoop (opId : String) : List Parameter → Except Halt (List Err)
  | [] => .ok []
  | p :: rest =>
    match paramItemsErrors p opId with
    | .error h => .error h
    | .ok es =>
      match itemsParamsLoop opId rest with
      | .error h => .error h
      | .ok es' => .ok (es ++ es')

/-- The `for path, op := range pi` loop of `validateItems`. -/
def itemsPathLoop (doc : Document) (method : String) :
    List (String × Operation) → Except Halt (List Err)
  | [] => .ok []
  | (path, op) :: rest =>
    match itemsParamsLoop op.id (doc.paramsForLookup method path) with
    | .error h => .error h
    | .ok es1 =>
      let es2 := (responsesOf op).flatMap (respItemsErrors · op.id)
      match itemsPathLoop doc method rest with
      | .error h => .error h
      | .ok es' => .ok (es1 ++ es2 ++ es')

/-- The `for method, pi := range s.spec.Operations()` loop of
`validateItems`. -/
def itemsMethodLoop (doc : Document) :
    List (String × List (String × Operation)) → Except Halt (List Err)
  | [] => .ok []
  | (m, pi) :: rest =>
    match itemsPathLoop doc m pi with
    | .error h => .error h
    | .ok es =>
      match itemsMethodLoop doc rest with
      | .error h => .error h
      | .ok es' => .ok (es ++ es')

/-- `SpecValidator.validateItems` (spec.go:214-269). -/
def validateItems (doc : Document) : Except Halt (List Err) :=
  itemsMethodLoop doc doc.operations

/-- `strings.Split(s, "/")` on the character list of `s`: `""` splits to
`[""]`, and separators at either end produce empty segments. -/
def splitOnChar (c : Char) : List Char → List (List Char)
  | [] => [[]]
  | x :: rest =>
    if x == c then [] :: splitOnChar c rest
    else
      match splitOnChar c rest with
      | h :: t => (x :: h) :: t
      | [] => [[x]]

/-- `strings.Split(path, "/")`. -/
def splitSlash (path : String) : List String :=
  (splitOnChar '/' path.toList).map String.mk

/-- `strings.Join(l, "/")`. -/
def joinSlash : List String → String
  | [] => ""
  | [s] => s
  | s :: rest => s ++ "/" ++ joinSlash rest

/-- The parameter-segment test of `parsePath` (spec.go:462): non-empty,
starts with `{` and ends with `}`. -/
def isParamSeg (p : String) : Bool :=
  match p.toList with
  | [] => false
  | c :: rest => c == '{' && rest.getLastD c == '}'

/-- `parsePath` (spec.go:459-467): the segments of the path split on `/`
together with the positions of the parameter segments. -/
def parsePath (path : String) : List String × List Nat :=
  let segments := splitSlash path
  (segments, (segments.enum.filter (fun ip => isParamSeg ip.2)).map (·.1))

/-- The `for _, i := range params` loop of `validateParameters`
(spec.go:387-391): collect the parameter segments into `fromPath` and
overwrite each with the sentinel `"!"`. -/
def replaceParams : List String → List Nat → List String × List String
  | knowns, [] => ([], knowns)
  | knowns, i :: rest =>
    let v := knowns.getD i ""
    let (fp, kn) := replaceParams (knowns.set i "!") rest
    (v :: fp, kn)

/-- Lines 382-392 of `validateParameters`: the parameter segments of a
path together with its canonical (`knownPath`) form. -/
def pathArtifacts (path : String) : List String × String :=
  let (segments, params) := parsePath path
  let (fromPath, knowns) := replaceParams segments params
  (fromPath, joinSlash knowns)

/-- The canonical form of a path template: every parameter segment
replaced by `"!"`, segments rejoined with `/`. -/
def canonicalPath (path : String) : String := (pathArtifacts path).2

/-- `SpecValidator.validatePathParamPresence` (spec.go:304-335). -/
def validatePathParamPresence (path : String) (fromPath fromOperation : List String) :
    List Err :=
  (fromPath.filterMap (fun l =>
    if fromOperation.any (fun r => l == "\x7b" ++ r ++ "\x7d") then none
    else some (.pathParamNoDefinition l)))
  ++ (fromOperation.filterMap (fun p =>
    if fromPath.any (fun r => ("\x7b" ++ p ++ "\x7d") == r) then none
    else some (.pathParamNotInPath p path)))

/-- Lookup in the `ptypes` map (`in` → set of names) of
`validateParameters`. -/
def ptypesLookup (ptypes : List (String × List String)) (inLoc : String) : List String :=
  ((ptypes.find? (fun kv => kv.1 == inLoc)).map (·.2)).getD []

/-- Insertion into the `ptypes` map of `validateParameters`. -/
def ptypesInsert (ptypes : List (String × List String)) (inLoc name : String) :
    List (String × List String) :=
  match ptypes.find? (fun kv => kv.1 == inLoc) with
  | some _ =>
    ptypes.map (fun kv =>
      if kv.1 == inLoc then (kv.1, if kv.2.contains name then kv.2 else kv.2 ++ [name])
      else kv)
  | none => ptypes ++ [(inLoc, [name])]

/-- The `for _, ppr := range op.Parameters` loop of `validateParameters`
(spec.go:403-427): resolve a `ref` parameter (a failure is reported and
`break`s the loop), then report `(in, name)` duplicates. -/
def opParamLoop (doc : Document) (opId : String) :
    List Parameter → List (String × List String) → List Err
  | [], _ => []
  | ppr :: rest, ptypes =>
    match ppr.ref with
    | some r =>
      match resolveParamRef doc r with
      | none => [.refNotResolved r]
      | some pr =>
        (if (ptypesLookup ptypes pr.In).contains pr.name then
          [Err.duplicateParamName pr.name pr.In opId]
         else [])
          ++ opParamLoop doc opId rest (ptypesInsert ptypes pr.In pr.name)
    | none =>
      (if (ptypesLookup ptypes ppr.In).contains ppr.name then
        [Err.duplicateParamName ppr.name ppr.In opId]
       else [])
        ++ opParamLoop doc opId rest (ptypesInsert ptypes ppr.In ppr.name)

/-- The `for _, ppr := range s.spec.ParamsFor(method, path)` loop of
`validateParameters` (spec.go:429-452): resolve a `ref` parameter (a
failure is reported and `break`s the loop), report extra body
parameters, and collect the declared path-parameter names. -/
def paramsForLoop (doc : Document) (opId : String) :
    List Parameter → String → List Err × List String
  | [], _ => ([], [])
  | ppr :: rest, firstBodyParam =>
    match ppr.ref with
    | some r =>
      match resolveParamRef doc r with
      | none => ([.refNotResolved r], [])
      | some pr =>
        let bodyErrs :=
          if pr.In == "body" && firstBodyParam != "" then
            [Err.moreThanOneBodyParam opId firstBodyParam pr.name]
          else []
        let fb := if pr.In == "body" then pr.name else firstBodyParam
        let names := if pr.In == "path" then [pr.name] else []
        let (es, ns) := paramsForLoop doc opId rest fb
        (bodyErrs ++ es, names ++ ns)
    | none =>
      let bodyErrs :=
        if ppr.In == "body" && firstBodyParam != "" then
          [Err.moreThanOneBodyParam opId firstBodyParam ppr.name]
        else []
      let fb := if ppr.In == "body" then ppr.name else firstBodyParam
      let names := if ppr.In == "path" then [ppr.name] else []
      let (es, ns) := paramsForLoop doc opId rest fb
      (bodyErrs ++ es, names ++ ns)

/-- The `for path, op := range pi` loop of `validateParameters`
(spec.go:381-454): canonical-path overlap detection against the
`knownPaths` map, the two parameter loops, and the path-parameter
presence check. -/
def paramsPathLoop (doc : Document) (method : String) :
    List (String × Operation) → List (String × String) → List Err
  | [], _ => []
  | (path, op) :: rest, knownPaths =>
    let arts := pathArtifacts path
    let overlap :=
      match knownPaths.find? (fun kv => kv.1 == arts.2) with
      | some kv => [Err.pathOverlap path kv.2]
      | none => []
    let knownPaths' :=
      match knownPaths.find? (fun kv => kv.1 == arts.2) with
      | some _ => knownPaths
      | none => knownPaths ++ [(arts.2, path)]
    let opErrs := opParamLoop doc op.id op.parameters []
    let pfres := paramsForLoop doc op.id (doc.paramsForLookup method path) ""
    let presence := validatePathParamPresence path arts.1 pfres.2
    overlap ++ opErrs ++ pfres.1 ++ presence ++ paramsPathLoop doc method rest knownPaths'

/-- The `for method, pi := range s.spec.Operations()` loop of
`validateParameters`: the `knownPaths` map is fresh per method. -/
def paramsMethodLoop (doc : Document) :
    List (String × List (String × Operation)) → List Err
  | [] => []
  | (m, pi) :: rest => paramsPathLoop doc m pi [] ++ paramsMethodLoop doc rest

/-- `SpecValidator.validateParameters` (spec.go:374-457). -/
def validateParameters (doc : Document) : List Err :=
  paramsMethodLoop doc doc.operations

/-- The per-required-name body of `validateRequiredDefinitions`
(spec.go:346-369): accept a name present in `properties`, matching some
`patternProperties` key (regex matching is the external `regexp` engine,
abstracted as `reMatch`), or allowed by `additionalProperties` (boolean
or schema form); otherwise report it. -/
def requiredNameErrs (reMatch : String → String → Bool) (d : String) (v : Schema)
    (pn : String) : List Err :=
  if v.properties.any (fun kv => kv.1 == pn) then []
  else if v.patternProperties.any (fun kv => reMatch kv.1 pn) then []
  else
    match v.additionalProperties with
    | some (allows, osch) =>
      if allows then []
      else if osch.isSome then []
      else [.requiredNotDefined pn d]
    | none => [.requiredNotDefined pn d]

/-- `SpecValidator.validateRequiredDefinitions` (spec.go:342-372). -/
def validateRequiredDefinitions (reMatch : String → String → Bool)
    (defs : List (String × Schema)) : List Err :=
  defs.flatMap (fun dv => dv.2.required.flatMap (requiredNameErrs reMatch dv.1 dv.2))

/-- A `known[v]++` update of the `known` map of
`validateDuplicateOperationIDs`. -/
def bumpCount (known : List (String × Nat)) (k : String) : List (String × Nat) :=
  match known.find? (fun kv => kv.1 == k) with
  | some _ => known.map (fun kv => if kv.1 == k then (kv.1, kv.2 + 1) else kv)
  | none => known ++ [(k, 1)]

/-- The first loop of `validateDuplicateOperationIDs` (spec.go:96-100):
count every non-empty operation id. -/
def opIdCounts (ids : List String) : List (String × Nat) :=
  ids.foldl (fun known v => if v == "" then known else bumpCount known v) []

/-- `SpecValidator.validateDuplicateOperationIDs` (spec.go:93-107). -/
def validateDuplicateOperationIDs (ids : List String) : List Err :=
  (opIdCounts ids).filterMap (fun kv =>
    if kv.2 > 1 then some (.duplicateOpId kv.1 kv.2) else none)

/-- `Result.HasErrors()`: modelled from the spec (§4.A), true iff the
error sequence is non-empty. -/
def hasErrors (l : List Err) : Bool := !l.isEmpty

/-- `SpecValidator.Validate` (spec.go:46-91), for inputs that pass the
`*spec.Document` type gate.  Modelled from the spec where the driver
calls external collaborators: `unmarshalErr` is the outcome of
`json.Unmarshal(sd.Raw(), ...)`, `metaSchemaErrs` the result of
validating the raw document against the Swagger 2.0 meta-schema,
`expandErr` the outcome of `Document.Expanded()` inside
`validateReferencesValid`, and `defaultValueErrs`/`exampleErrs` the
results of the two sample-value phases (which invoke the external
JSON-schema validator).  The structural phases are the embedded
functions above. -/
def Validate (doc : Document) (unmarshalErr : Option String) (metaSchemaErrs : List Err)
    (expandErr : Option String) (reMatch : String → String → Bool)
    (defaultValueErrs exampleErrs : List Err) (fuel : Nat) : Except Halt (List Err) :=
  match unmarshalErr with
  | some m => .ok [.jsonUnmarshal m]
  | none =>
    if hasErrors metaSchemaErrs then .ok metaSchemaErrs
    else
      let errs := metaSchemaErrs ++
        (match expandErr with
         | some m => [Err.refExpansion m]
         | none => [])
      if hasErrors errs then .ok errs
      else
        let e1 := validateDuplicateOperationIDs doc.operationIDs
        match validateDuplicatePropertyNames doc.definitions fuel with
        | .error h => .error h
        | .ok e2 =>
          let e3 := validateParameters doc
          match validateItems doc with
          | .error h => .error h
          | .ok e4 =>
            let e5 := validateRequiredDefinitions reMatch doc.definitions
            .ok (errs ++ e1 ++ e2 ++ e3 ++ e4 ++ e5 ++ defaultValueErrs ++ exampleErrs)

/-! ## Analysis definitions

Predicates about the embedded functions: the reference graph of the
`allOf` spine, acyclicity, and clean recursive characterizations of the
items checks. -/

mutual

/-- The pointer strings the `allOf` spine walkers follow from a schema
without crossing any reference: the schema's own `ref` if present,
otherwise the references of its `allOf` children. -/
def refsOf : Schema → List String
  | .mk r _ allOf _ _ _ _ _ _ =>
    match r with
    | some p => [p]
    | none => refsOfList allOf

/-- `refsOf` over a list of schemas. -/
def refsOfList : List Schema → List String
  | [] => []
  | s :: rest => refsOf s ++ refsOfList rest

end

/-- The pointer strings reachable from a definition body by the spine
walkers, both when the body is entered directly (its own `ref` counts)
and when it is entered through a reference crossing (only its `allOf`
children are walked). -/
def outRefs (sch : Schema) : List String :=
  (match sch.ref with
   | some r => [r]
   | none => []) ++ refsOfList sch.allOf

/-- Acyclicity of the `allOf`/`$ref` reference graph of the definitions:
a ranking of pointer strings that strictly decreases along every
reference edge out of a definition body.  For the finite edge relation
at hand such a ranking exists exactly when no definition reaches itself
through a chain of `allOf` references. -/
def Acyclic (defs : List (String × Schema)) : Prop :=
  ∃ rank : String → Nat,
    ∀ kv ∈ defs, ∀ q ∈ outRefs kv.2, rank q < rank (defPointer kv.1)

mutual

/-- The violation predicate `validateSchemaItems` decides: the type
contains `"array"` and the `items` chain (only `Items.Schema` /
`Items.Schemas`, never `properties` or `allOf`) bottoms out without an
element schema. -/
def itemsChainViolation : Schema → Bool
  | .mk _ ty _ _ _ _ items _ _ =>
    ty.contains "array" &&
      (match items with
       | none => true
       | some (some s, _) => itemsChainViolation s
       | some (none, schemas) => schemas.length == 0 || itemsChainViolationList schemas)

/-- `itemsChainViolation` over a list: some member violates. -/
def itemsChainViolationList : List Schema → Bool
  | [] => false
  | s :: rest => itemsChainViolation s || itemsChainViolationList rest

end

/-- The violation predicate the primitive-parameter `items` loop
decides: the chain of nested `items` stays `"array"` until an element
description is missing or has an empty type. -/
def primChainViolation : PItems → Bool
  | .mk ty items =>
    ty == "array" &&
      (match items with
       | none => true
       | some c => if c.type == "" then true else primChainViolation c)

mutual

/-- The reading of the claim for body parameters and response bodies:
descend through the full schema graph of §4.D (`properties`,
`patternProperties`, `additionalProperties`, `items`,
`additionalItems`, `allOf`) and flag any array node without an element
schema.  Stated from the spec's words, for comparison with the source's
`validateSchemaItems`. -/
def specArrayWithoutItems : Schema → Bool
  | .mk _ ty allOf props pprops ap items ai _ =>
    (match items with
     | none => ty.contains "array"
     | some (some s, schemas) =>
         specArrayWithoutItems s || specArrayWithoutItemsList schemas
     | some (none, schemas) =>
         (ty.contains "array" && schemas.isEmpty) || specArrayWithoutItemsList schemas)
    || specArrayWithoutItemsList allOf
    || specArrayWithoutItemsPairs props
    || specArrayWithoutItemsPairs pprops
    || specArrayWithoutItemsOpt ap
    || specArrayWithoutItemsOpt ai

/-- `specArrayWithoutItems` under the optional schema of a
`SchemaOrBool` (`additionalProperties` / `additionalItems`). -/
def specArrayWithoutItemsOpt : Option (Bool × Option Schema) → Bool
  | some (_, some s) => specArrayWithoutItems s
  | some (_, none) => false
  | none => false

/-- `specArrayWithoutItems` over a list of schemas. -/
def specArrayWithoutItemsList : List Schema → Bool
  | [] => false
  | s :: rest => specArrayWithoutItems s || specArrayWithoutItemsList rest

/-- `specArrayWithoutItems` over named schemas. -/
def specArrayWithoutItemsPairs : List (String × Schema) → Bool
  | [] => false
  | (_, s) :: rest => specArrayWithoutItems s || specArrayWithoutItemsPairs rest

end

/-- Recognizer for path-overlap diagnostics. -/
def isOverlapErr : Err → Bool
  | .pathOverlap _ _ => true
  | _ => false

/-- Recognizer for circular-ancestry diagnostics. -/
def isCircularErr : Err → Bool
  | .circularAncestry _ _ => true
  | _ => false

/-! ## Concrete documents used by the counterexamples and witnesses -/

/-- A schema that is nothing but a `$ref`. -/
def childRef (p : String) : Schema := .mk (some p) [] [] [] [] none none none []

/-- `Pet` extends `Base` through `allOf`; no cycle. -/
def bodyPet : Schema := .mk none [] [childRef "#/definitions/Base"] [] [] none none none []

/-- `Base`: one plain property. -/
def bodyBase : Schema := .mk none [] [] [("name", Schema.empty)] [] none none none []

/-- Definitions `{Pet ⊂ Base}`: an acyclic `allOf` chain crossing one
`$ref`. -/
def acyclicDefs : List (String × Schema) := [("Pet", bodyPet), ("Base", bodyBase)]

/-- A definition whose `allOf` references a definition that does not
exist. -/
def bodyMissingRef : Schema := .mk none [] [childRef "#/definitions/Missing"] [] [] none none none []

/-- Document with a single unresolvable reference in an `allOf`. -/
def missingRefDefs : List (String × Schema) := [("Pet", bodyMissingRef)]

/-- `A.allOf = [$ref A]`: a genuine self-cycle. -/
def bodyA : Schema := .mk none [] [childRef "#/definitions/A"] [] [] none none none []

/-- `B.allOf = [$ref B]`: a second self-cycle. -/
def bodyB : Schema := .mk none [] [childRef "#/definitions/B"] [] [] none none none []

/-- Two distinct definitions, each with circular ancestry. -/
def twoCycleDefs : List (String × Schema) := [("A", bodyA), ("B", bodyB)]

/-- A single self-cyclic definition. -/
def cycDefs : List (String × Schema) := [("A", bodyA)]

/-- A leaf schema declaring property `p`. -/
def leafWithP : Schema := .mk none [] [] [("p", Schema.empty)] [] none none none []

/-- A definition whose two `allOf` branches both declare property `p`. -/
def dupPropBody : Schema := .mk none [] [leafWithP, leafWithP] [] [] none none none []

/-- Two distinct definitions, each with duplicate inherited
properties and no references. -/
def twoDupDefs : List (String × Schema) := [("C", dupPropBody), ("D", dupPropBody)]

/-- The empty document. -/
def emptyDoc : Document := ⟨[], [], [], [], []⟩

/-- A parameter that is an unresolvable `$ref`. -/
def badRefParam : Parameter := ⟨"r", "query", "", none, none, some "#/parameters/missing"⟩

/-- A plain query parameter named `q`. -/
def qParam : Parameter := ⟨"q", "query", "", none, none, none⟩

/-- An operation whose parameter list starts with an unresolvable `$ref`
followed by two parameters with the same `(in, name)`. -/
def opWithBadRef : Operation := ⟨"opB", [badRefParam, qParam, qParam], none⟩

/-- Document exercising the `break` on a parameter-reference failure. -/
def docWithBadRef : Document := ⟨[], [], [("get", [("/", opWithBadRef)])], [], []⟩

/-! ## Theorems -/

/-- C1.  The claim says a circular-ancestry error appears exactly when
the `allOf` walk re-encounters a pointer already in the visited set, and
in particular that an `allOf` chain crossing `$ref`s without revisiting
a pointer produces no such error.  The code inserts the crossed pointer
into `knowns` *before* the membership test (spec.go:192-196), so the
very first reference crossing is flagged: on the acyclic chain
`Pet --allOf--> $ref Base` it reports `definition "Pet" has circular
ancestry: [#/definitions/Base]`, contradicting the claim and the
error message itself. -/
theorem c1_circular_ancestry_without_revisit :
    validateDuplicatePropertyNames acyclicDefs 4 =
      .ok [.circularAncestry "Pet" ["#/definitions/Base"]]
    ∧ Acyclic acyclicDefs := by
  constructor
  · rfl
  · refine ⟨fun p => if p = "#/definitions/Base" then 0 else 1, ?_⟩
    intro kv hkv q hq
    fin_cases hkv
    · simp only [outRefs, refsOf, refsOfList, bodyPet, childRef, Schema.ref,
        Schema.allOf, List.append_nil, List.nil_append, List.mem_singleton] at hq
      subst hq
      decide
    · simp only [outRefs, refsOf, refsOfList, bodyBase, Schema.ref, Schema.allOf,
        List.append_nil, List.not_mem_nil] at hq

/-- C2.  The claim says a reference that fails to resolve during the
duplicate-property / ancestry traversal is converted into an error
diagnostic and the walk continues, never panicking.  The source panics
(spec.go:155, 188): on a definition whose `allOf` holds the
unresolvable `$ref #/definitions/Missing`, the whole `Validate` call
halts with a panic instead of producing a diagnostic. -/
theorem c2_resolver_failure_panics :
    validateDuplicatePropertyNames missingRefDefs 4 = .error .panicked
    ∧ Validate ⟨missingRefDefs, [], [], [], []⟩ none [] none (fun _ _ => false) [] [] 4 =
        .error .panicked := ⟨rfl, rfl⟩

/-- Circular-ancestry diagnostics of a `vdpnLoop` pass number at most
one: the loop returns as soon as one is emitted (spec.go:127-130). -/
theorem vdpn_circular_le_one (defs : List (String × Schema)) (fuel : Nat) :
    ∀ rest l, vdpnLoop defs fuel rest = .ok l →
      (l.filter isCircularErr).length ≤ 1 := by
  intro rest
  induction rest with
  | nil =>
    intro l h
    simp only [vdpnLoop] at h
    cases h
    simp
  | cons kv rest ih =>
    intro l h
    simp only [vdpnLoop] at h
    split at h
    · exact ih l h
    · split at h
      · cases h
      · split at h
        · split at h
          · cases h
          · split at h
            · cases h
            · rename_i es hes
              split at h <;>
                (cases h
                 simp only [List.filter_append, List.filter_cons, List.filter_nil,
                   isCircularErr, List.nil_append, Bool.false_eq_true, if_false,
                   List.length_append]
                 simpa using ih _ hes)
        · cases h
          simp [isCircularErr]

/-- C3 (amended).  Within a phase, independent violations are reported
together only up to two exceptions in the source: a circular-ancestry
hit makes `validateDuplicatePropertyNames` return at once, so at most
one circular diagnostic (the first violating definition in iteration
order) is ever produced; and a parameter-reference resolution failure
`break`s the parameter loops, suppressing the checks of that
operation's remaining parameters.  Duplicate-property violations of
distinct definitions are still all reported. -/
theorem c3_amended_phase_independence :
    (∀ (defs : List (String × Schema)) (fuel : Nat) (l : List Err),
        validateDuplicatePropertyNames defs fuel = .ok l →
        (l.filter isCircularErr).length ≤ 1)
    ∧ validateDuplicatePropertyNames twoDupDefs 4 =
        .ok [.duplicateProps "C" ["C.p"], .duplicateProps "D" ["D.p"]]
    ∧ validateParameters docWithBadRef = [.refNotResolved "#/parameters/missing"] := by
  refine ⟨?_, rfl, rfl⟩
  intro defs fuel l h
  exact vdpn_circular_le_one defs fuel defs l h

/-- Witness for C3 (amended): the universally quantified part applied to
the document with two cyclic definitions. -/
theorem c3_amended_witness :
    (([Err.circularAncestry "A" ["#/definitions/A"]]).filter isCircularErr).length ≤ 1 :=
  c3_amended_phase_independence.1 twoCycleDefs 4 _ rfl

/-- C3 (counterexample).  Both `A` and `B` have circular ancestry, yet
`validateDuplicatePropertyNames` reports only the first: the `return`
at spec.go:129 aborts the whole pass. -/
theorem c3_counterexample :
    validateDuplicatePropertyNames twoCycleDefs 4 =
      .ok [.circularAncestry "A" ["#/definitions/A"]] := rfl

/-- The count the `known` map of `validateDuplicateOperationIDs` stores
for a key (`0` when absent). -/
def cntOf (known : List (String × Nat)) (x : String) : Nat :=
  ((known.find? (fun kv => kv.1 == x)).map (·.2)).getD 0

/-- Invariant of the `known` map: keys unique and non-empty, counts
positive. -/
def KnownInv (known : List (String × Nat)) : Prop :=
  (known.map Prod.fst).Nodup ∧ ∀ kv ∈ known, kv.1 ≠ "" ∧ 0 < kv.2

/-- `bumpCount` increments exactly the bumped key's count. -/
theorem cntOf_bumpCount (known : List (String × Nat)) (v x : String) :
    cntOf (bumpCount known v) x = if x = v then cntOf known x + 1 else cntOf known x := by
  unfold bumpCount
  cases hf : known.find? (fun kv => kv.1 == v) with
  | none =>
    by_cases hx : x = v
    · subst hx
      simp [cntOf, List.find?_append, hf]
    · have hvx : (v == x) = false := by
        simp only [beq_eq_false_iff_ne, ne_eq]
        exact fun h => hx h.symm
      simp [cntOf, List.find?_append, hvx, hx, Option.or_none]
  | some kv =>
    have hkey : ∀ kv₂ : String × Nat,
        ((if kv₂.1 == v then (kv₂.1, kv₂.2 + 1) else kv₂) : String × Nat).1 = kv₂.1 := by
      intro kv₂; split <;> rfl
    have hfind : ∀ y : String,
        (known.map (fun kv₂ => if kv₂.1 == v then (kv₂.1, kv₂.2 + 1) else kv₂)).find?
            (fun kv₂ => kv₂.1 == y)
          = (known.find? (fun kv₂ => kv₂.1 == y)).map
              (fun kv₂ => if kv₂.1 == v then (kv₂.1, kv₂.2 + 1) else kv₂) := by
      intro y
      have hcomp : ((fun kv₂ : String × Nat => kv₂.1 == y) ∘
            fun kv₂ : String × Nat => if kv₂.1 == v then (kv₂.1, kv₂.2 + 1) else kv₂)
          = fun kv₂ : String × Nat => kv₂.1 == y := by
        funext kv₂
        simp only [Function.comp_apply, hkey kv₂]
      rw [List.find?_map, hcomp]
    simp only [hf]
    by_cases hx : x = v
    · subst hx
      have hv := List.find?_some hf
      rw [if_pos rfl]
      unfold cntOf
      rw [hfind, hf]
      have hkx : kv.1 = x := by simpa using hv
      simp [hkx]
    · rw [if_neg hx]
      unfold cntOf
      rw [hfind]
      cases hg : known.find? (fun kv₂ => kv₂.1 == x) with
      | none => simp
      | some kv' =>
        have h1 := List.find?_some hg
        have h2 : ¬kv'.1 = v := by
          have hx1 : kv'.1 = x := by simpa using h1
          simp [hx1, hx]
        simp [h2]

/-- `bumpCount` preserves the `known`-map invariant. -/
theorem knownInv_bumpCount (known : List (String × Nat)) (v : String) (hv : v ≠ "")
    (h : KnownInv known) : KnownInv (bumpCount known v) := by
  obtain ⟨hnd, hvals⟩ := h
  unfold bumpCount
  cases hf : known.find? (fun kv => kv.1 == v) with
  | none =>
    constructor
    · rw [List.map_append, List.nodup_append]
      refine ⟨hnd, by simp, ?_⟩
      intro a ha
      have : ∀ kv ∈ known, ¬(kv.1 == v) = true := List.find?_eq_none.mp hf
      simp only [List.map_cons, List.map_nil, List.mem_singleton]
      obtain ⟨kv, hkv, rfl⟩ := List.mem_map.mp ha
      intro hEq
      exact (this kv hkv) (by simp [hEq])
    · intro kv hkv
      rcases List.mem_append.mp hkv with h1 | h1
      · exact hvals kv h1
      · simp only [List.mem_singleton] at h1
        subst h1
        exact ⟨hv, Nat.one_pos⟩
  | some kv =>
    constructor
    · have : (known.map (fun kv₂ => if kv₂.1 == v then (kv₂.1, kv₂.2 + 1) else kv₂)).map Prod.fst
          = known.map Prod.fst := by
        rw [List.map_map]
        apply List.map_congr_left
        intro a _
        simp only [Function.comp_apply]
        split <;> rfl
      rw [this]
      exact hnd
    · intro kv' hkv'
      obtain ⟨kv₂, hkv₂, rfl⟩ := List.mem_map.mp hkv'
      have := hvals kv₂ hkv₂
      split <;> simp_all

/-- The counting fold of `validateDuplicateOperationIDs`: starting from
an invariant-satisfying map, it adds each non-empty id's occurrences. -/
theorem foldlCounts_spec (ids : List String) :
    ∀ known : List (String × Nat), KnownInv known →
      KnownInv (ids.foldl (fun known v => if v == "" then known else bumpCount known v) known)
      ∧ ∀ x, x ≠ "" →
          cntOf (ids.foldl (fun known v => if v == "" then known else bumpCount known v) known) x
            = cntOf known x + ids.count x := by
  induction ids with
  | nil =>
    intro known hInv
    exact ⟨hInv, fun x _ => by simp⟩
  | cons v rest ih =>
    intro known hInv
    rw [List.foldl_cons]
    by_cases hv : v = ""
    · subst hv
      rw [if_pos (show ("" == "") = true from rfl)]
      obtain ⟨h1, h2⟩ := ih known hInv
      refine ⟨h1, fun x hx => ?_⟩
      rw [h2 x hx, List.count_cons]
      have hex : ("" == x) = false := by
        simp only [beq_eq_false_iff_ne, ne_eq]
        exact fun h => hx h.symm
      simp [hex]
    · rw [if_neg (by simpa using hv)]
      obtain ⟨h1, h2⟩ := ih (bumpCount known v) (knownInv_bumpCount known v hv hInv)
      refine ⟨h1, fun x hx => ?_⟩
      rw [h2 x hx, cntOf_bumpCount, List.count_cons]
      by_cases hxv : x = v
      · subst hxv
        simp only [if_pos rfl, beq_self_eq_true, if_true]
        omega
      · have hvx : (v == x) = false := by
          simp only [beq_eq_false_iff_ne, ne_eq]
          exact fun h => hxv h.symm
        simp [hxv, hvx]

/-- With unique keys, association-list membership coincides with
`find?`. -/
theorem mem_iff_find?_assoc (known : List (String × Nat))
    (hnd : (known.map Prod.fst).Nodup) (x : String) (n : Nat) :
    (x, n) ∈ known ↔ known.find? (fun kv => kv.1 == x) = some (x, n) := by
  induction known with
  | nil => simp
  | cons kv rest ih =>
    simp only [List.map_cons, List.nodup_cons] at hnd
    obtain ⟨hni, hnd'⟩ := hnd
    by_cases hk : kv.1 = x
    · have hb : (kv.1 == x) = true := by simp [hk]
      rw [List.find?_cons, hb]
      constructor
      · intro hmem
        rcases List.mem_cons.mp hmem with h1 | h1
        · rw [h1]
        · exfalso
          apply hni
          rw [hk]
          exact List.mem_map.mpr ⟨(x, n), h1, rfl⟩
      · intro hEq
        exact List.mem_cons.mpr (Or.inl (by cases hEq; rfl))
    · have hb : ¬(kv.1 == x) = true := by simp [hk]
      rw [List.find?_cons, show (kv.1 == x) = false from by simpa using hk]
      rw [← ih hnd']
      constructor
      · intro hmem
        rcases List.mem_cons.mp hmem with h1 | h1
        · exact absurd (congrArg Prod.fst h1.symm) hk
        · exact h1
      · exact fun h => List.mem_cons.mpr (Or.inr h)

/-- C9.  `Validate` reports `"X is defined N times"` exactly for each
non-empty operation id `X` occurring `N > 1` times in the document's
operation-id sequence; empty ids are ignored, an id occurring once
produces nothing, and each offending id yields a single diagnostic. -/
theorem c9_duplicate_operation_ids (ids : List String) (x : String) (n : Nat) :
    (Err.duplicateOpId x n ∈ validateDuplicateOperationIDs ids ↔
      x ≠ "" ∧ n = ids.count x ∧ 2 ≤ n)
    ∧ (validateDuplicateOperationIDs ids).Nodup := by
  have hbase : KnownInv [] := ⟨by simp, by simp⟩
  obtain ⟨hInv, hcnt⟩ := foldlCounts_spec ids [] hbase
  have hcounts : opIdCounts ids
      = ids.foldl (fun known v => if v == "" then known else bumpCount known v) [] := rfl
  constructor
  · rw [validateDuplicateOperationIDs, List.mem_filterMap]
    constructor
    · rintro ⟨⟨k, v⟩, hmem, hf⟩
      rw [hcounts] at hmem
      split at hf
      · rename_i hgt
        cases hf
        have hprops := hInv.2 (k, v) hmem
        have hfind := (mem_iff_find?_assoc _ hInv.1 k v).mp hmem
        have hcv := hcnt k hprops.1
        unfold cntOf at hcv
        rw [hfind, List.find?_nil] at hcv
        simp only [Option.map_some', Option.getD_some, Option.map_none', Option.getD_none,
          Nat.zero_add] at hcv
        have hgt' : 1 < v := hgt
        refine ⟨hprops.1, ?_, ?_⟩
        · show v = ids.count k
          omega
        · show 2 ≤ v
          omega
      · cases hf
    · rintro ⟨hx, hn, h2⟩
      refine ⟨(x, n), ?_, ?_⟩
      · rw [hcounts]
        rw [mem_iff_find?_assoc _ hInv.1 x n]
        have hcx := hcnt x hx
        unfold cntOf at hcx
        rw [List.find?_nil] at hcx
        simp only [Option.map_none', Option.getD_none, Nat.zero_add] at hcx
        cases hg : (ids.foldl (fun known v => if v == "" then known else bumpCount known v) []).find?
            (fun kv => kv.1 == x) with
        | none =>
          exfalso
          rw [hg] at hcx
          simp only [Option.map_none', Option.getD_none] at hcx
          omega
        | some kv =>
          have hk : kv.1 = x := by simpa using List.find?_some hg
          have hv : kv.2 = n := by
            simp only [hg, Option.map_some', Option.getD_some] at hcx
            omega
          exact congrArg some (show kv = (x, n) from Prod.ext hk hv)
      · simp only [if_pos (by omega : n > 1)]
  · have hp : (opIdCounts ids).Pairwise (fun a b => a.1 ≠ b.1) := by
      rw [hcounts]
      have := hInv.1
      rw [List.Nodup, List.pairwise_map] at this
      exact this
    apply List.Pairwise.filterMap _ ?_ hp
    intro a a' hne b hb b' hb'
    split at hb <;> simp only [Option.mem_def, Option.some.injEq] at hb
    · split at hb' <;> simp only [Option.mem_def, Option.some.injEq] at hb'
      · subst hb
        subst hb'
        intro hEq
        injection hEq with h1 h2
        exact hne h1
      · cases hb'
    · cases hb

/-- A definition requiring `age` with no properties, no pattern
properties, and `additionalProperties: false`. -/
def requiredOnlyDef : Schema := .mk none [] [] [] [] (some (false, none)) none none ["age"]

/-- Document for the required-but-undefined check. -/
def requiredDefs : List (String × Schema) := [("Pet", requiredOnlyDef)]

/-- The acceptance test of `validateRequiredDefinitions` in one boolean:
the name is a declared property, matches some pattern-property key, or
`additionalProperties` allows it (boolean-true or schema form). -/
def requiredAcceptedB (reMatch : String → String → Bool) (v : Schema) (pn : String) : Bool :=
  v.properties.any (fun kv => kv.1 == pn) ||
  v.patternProperties.any (fun kv => reMatch kv.1 pn) ||
  (match v.additionalProperties with
   | some (allows, osch) => allows || osch.isSome
   | none => false)

/-- `requiredNameErrs` in terms of the acceptance boolean. -/
theorem requiredNameErrs_eq (reMatch : String → String → Bool) (d : String) (v : Schema)
    (pn : String) :
    requiredNameErrs reMatch d v pn
      = if requiredAcceptedB reMatch v pn then [] else [.requiredNotDefined pn d] := by
  unfold requiredNameErrs requiredAcceptedB
  cases h1 : v.properties.any (fun kv => kv.1 == pn) <;>
    cases h2 : v.patternProperties.any (fun kv => reMatch kv.1 pn) <;>
      simp only [Bool.false_or, Bool.true_or, Bool.or_true, Bool.or_false, if_true, if_false,
        Bool.false_eq_true, Bool.true_eq_false, ite_true, ite_false] <;>
      try rfl
  cases hap : v.additionalProperties with
  | none => rfl
  | some p =>
    obtain ⟨allows, osch⟩ := p
    cases allows <;> cases osch <;> rfl

/-- C7 (counterexample).  On a definition requiring `age` with no way to
declare it, the code emits a message spelled `"... in defintion ..."`
(spec.go:368), not the claim's `"... in definition ..."`. -/
theorem c7_counterexample :
    (validateRequiredDefinitions (fun _ _ => false) requiredDefs).map errMessage =
      ["\"age\" is present in required but not defined as property in defintion \"Pet\""]
    ∧ ("\"age\" is present in required but not defined as property in defintion \"Pet\"" : String) ≠
      "\"age\" is present in required but not defined as property in definition \"Pet\"" := by
  exact ⟨rfl, by decide⟩

/-- C7 (amended).  For every definition and required name, no diagnostic
is emitted iff the name is a declared property, matches some
pattern-property key, or `additionalProperties` allows it; otherwise
exactly one error `X is present in required but not defined as property
in defintion Y` (the source's spelling) is emitted per occurrence, and
violations across names and definitions are all reported
independently. -/
theorem c7_amended_required_definitions (reMatch : String → String → Bool)
    (defs : List (String × Schema)) (pn d : String) :
    (Err.requiredNotDefined pn d ∈ validateRequiredDefinitions reMatch defs ↔
      ∃ v, (d, v) ∈ defs ∧ pn ∈ v.required ∧ requiredAcceptedB reMatch v pn = false)
    ∧ errMessage (.requiredNotDefined pn d) =
        goQuote pn ++ " is present in required but not defined as property in defintion " ++
          goQuote d
    ∧ ∀ v : Schema,
        (validateRequiredDefinitions reMatch [(d, v)]).count (Err.requiredNotDefined pn d)
          = if requiredAcceptedB reMatch v pn then 0 else v.required.count pn := by
  refine ⟨?_, rfl, ?_⟩
  · unfold validateRequiredDefinitions
    rw [List.mem_flatMap]
    constructor
    · rintro ⟨dv, hdv, hmem⟩
      rw [List.mem_flatMap] at hmem
      obtain ⟨pn', hpn', herr⟩ := hmem
      rw [requiredNameErrs_eq] at herr
      split at herr
      · cases herr
      · rename_i hacc
        simp only [List.mem_singleton] at herr
        injection herr with e1 e2
        subst e1
        subst e2
        exact ⟨dv.2, by simpa using hdv, hpn', Bool.not_eq_true _ ▸ Bool.of_not_eq_true hacc⟩
    · rintro ⟨v, hv, hpn, hacc⟩
      refine ⟨(d, v), hv, ?_⟩
      rw [List.mem_flatMap]
      refine ⟨pn, hpn, ?_⟩
      rw [requiredNameErrs_eq, hacc]
      simp
  · intro v
    unfold validateRequiredDefinitions
    simp only [List.flatMap_cons, List.flatMap_nil, List.append_nil]
    induction v.required with
    | nil => simp
    | cons pn' rest ih =>
      rw [List.flatMap_cons, List.count_append, ih, requiredNameErrs_eq]
      by_cases hpp : pn' = pn
      · subst hpp
        cases hacc : requiredAcceptedB reMatch v pn' <;>
          simp [List.count_cons, hacc] <;> omega
      · have hppb : ¬ pn' = pn := hpp
        cases hacc : requiredAcceptedB reMatch v pn' <;>
          cases haccp : requiredAcceptedB reMatch v pn <;>
            simp [List.count_cons, hppb, hacc, haccp]

/-- The indices `parsePath` returns are strictly increasing. -/
theorem parsePath_params_sorted (path : String) :
    (parsePath path).2.Pairwise (· < ·) := by
  unfold parsePath
  simp only
  have h1 : ((splitSlash path).enum.map Prod.fst).Pairwise (· < ·) := by
    rw [List.enum_map_fst]
    exact List.pairwise_lt_range _
  have h2 : (splitSlash path).enum.Pairwise (fun a b => a.1 < b.1) :=
    List.pairwise_map.mp h1
  have h3 : ((splitSlash path).enum.filter (fun ip => isParamSeg ip.2)).Pairwise
      (fun a b => a.1 < b.1) := h2.sublist (List.filter_sublist _)
  exact List.pairwise_map.mpr h3

/-- Every parameter index of `parsePath` reads back the parameter
segment. -/
theorem parsePath_params_getD (path : String) :
    ∀ i ∈ (parsePath path).2, isParamSeg ((parsePath path).1.getD i "") = true := by
  unfold parsePath
  simp only
  intro i hi
  obtain ⟨ip, hip, rfl⟩ := List.mem_map.mp hi
  have hmem := List.mem_of_mem_filter hip
  have hp := List.of_mem_filter hip
  obtain ⟨hlt, hx⟩ := List.mem_enum hmem
  rw [List.getD_eq_getElem?_getD, List.getElem?_eq_getElem hlt]
  simp only [Option.getD_some]
  rw [← hx]
  exact hp

/-- `replaceParams` collects exactly the segments at the given strictly
increasing indices. -/
theorem replaceParams_fst (params : List Nat) :
    ∀ segments : List String, params.Pairwise (· < ·) →
      (replaceParams segments params).1 = params.map (fun i => segments.getD i "") := by
  induction params with
  | nil => intro segments _; rfl
  | cons i rest ih =>
    intro segments hps
    rw [List.pairwise_cons] at hps
    obtain ⟨hhead, htail⟩ := hps
    show (replaceParams segments (i :: rest)).1 = _
    unfold replaceParams
    simp only [List.map_cons]
    rw [ih (segments.set i "!") htail]
    congr 1
    apply List.map_congr_left
    intro j hj
    rw [List.getD_eq_getElem?_getD, List.getD_eq_getElem?_getD,
      List.getElem?_set_ne (Nat.ne_of_lt (hhead j hj))]

/-- The parameter segments `validateParameters` extracts from a path are
exactly the `{...}` segments of the template, in order. -/
theorem pathArtifacts_fst (path : String) :
    (pathArtifacts path).1 = (splitSlash path).filter isParamSeg := by
  unfold pathArtifacts
  simp only
  rw [replaceParams_fst _ _ (parsePath_params_sorted path)]
  show ((((splitSlash path).enum.filter (fun ip => isParamSeg ip.2)).map (·.1)).map
      (fun i => (splitSlash path).getD i "")) = _
  rw [List.map_map]
  have hcongr : (((splitSlash path).enum.filter (fun ip => isParamSeg ip.2)).map
      ((fun i => (splitSlash path).getD i "") ∘ (·.1)))
      = (((splitSlash path).enum.filter (fun ip => isParamSeg ip.2)).map Prod.snd) := by
    apply List.map_congr_left
    intro ip hip
    have hmem := List.mem_of_mem_filter hip
    obtain ⟨hlt, hx⟩ := List.mem_enum hmem
    simp only [Function.comp_apply]
    rw [List.getD_eq_getElem?_getD, List.getElem?_eq_getElem hlt]
    simp only [Option.getD_some]
    exact hx.symm
  rw [hcongr]
  have hfm := @List.filter_map (Nat × String) String isParamSeg Prod.snd ((splitSlash path).enum)
  rw [List.enum_map_snd] at hfm
  try simp only [Function.comp] at hfm
  exact hfm.symm

/-- C8.  For every operation: the parameter segments extracted from the
template are exactly its `{...}` segments; every placeholder with no
declared path parameter of that name yields a `"path param %q has no
parameter definition"` error; every declared path parameter that is no
placeholder yields a `"path param %q is not present in path %q"` error;
and when the placeholders equal the declared names, no such error is
produced. -/
theorem c8_path_param_presence (path : String) (fromOp : List String) :
    ((pathArtifacts path).1 = (splitSlash path).filter isParamSeg)
    ∧ (∀ l, Err.pathParamNoDefinition l ∈
          validatePathParamPresence path (pathArtifacts path).1 fromOp ↔
        l ∈ (pathArtifacts path).1 ∧ ∀ r ∈ fromOp, l ≠ "\x7b" ++ r ++ "\x7d")
    ∧ (∀ p, Err.pathParamNotInPath p path ∈
          validatePathParamPresence path (pathArtifacts path).1 fromOp ↔
        p ∈ fromOp ∧ ("\x7b" ++ p ++ "\x7d") ∉ (pathArtifacts path).1)
    ∧ ((∀ l ∈ (pathArtifacts path).1, ∃ r ∈ fromOp, l = "\x7b" ++ r ++ "\x7d") →
       (∀ r ∈ fromOp, ("\x7b" ++ r ++ "\x7d") ∈ (pathArtifacts path).1) →
       validatePathParamPresence path (pathArtifacts path).1 fromOp = []) := by
  refine ⟨pathArtifacts_fst path, ?_, ?_, ?_⟩
  · intro l
    unfold validatePathParamPresence
    rw [List.mem_append]
    constructor
    · rintro (h | h)
      · rw [List.mem_filterMap] at h
        obtain ⟨a, ha, hfa⟩ := h
        split at hfa
        · cases hfa
        · rename_i hany
          injection hfa with e
          injection e with e'
          subst e'
          refine ⟨ha, ?_⟩
          intro r hr hEq
          exact hany (List.any_eq_true.mpr ⟨r, hr, by simp [hEq]⟩)
      · exfalso
        rw [List.mem_filterMap] at h
        obtain ⟨a, _, hfa⟩ := h
        split at hfa
        · cases hfa
        · cases hfa
    · rintro ⟨hl, hno⟩
      left
      rw [List.mem_filterMap]
      refine ⟨l, hl, ?_⟩
      have hany : fromOp.any (fun r => l == "\x7b" ++ r ++ "\x7d") = false := by
        rw [List.any_eq_false]
        intro r hr
        simp only [beq_iff_eq]
        exact hno r hr
      rw [if_neg (by simp [hany])]
  · intro p
    unfold validatePathParamPresence
    rw [List.mem_append]
    constructor
    · rintro (h | h)
      · exfalso
        rw [List.mem_filterMap] at h
        obtain ⟨a, _, hfa⟩ := h
        split at hfa
        · cases hfa
        · cases hfa
      · rw [List.mem_filterMap] at h
        obtain ⟨a, ha, hfa⟩ := h
        split at hfa
        · cases hfa
        · rename_i hany
          injection hfa with e
          injection e with e1 e2
          subst e1
          refine ⟨ha, ?_⟩
          intro hmem
          exact hany (List.any_eq_true.mpr ⟨_, hmem, by simp⟩)
    · rintro ⟨hp, hno⟩
      right
      rw [List.mem_filterMap]
      refine ⟨p, hp, ?_⟩
      have hany : (pathArtifacts path).1.any (fun r => ("\x7b" ++ p ++ "\x7d") == r) = false := by
        rw [List.any_eq_false]
        intro r hr
        simp only [beq_iff_eq]
        intro hEq
        exact hno (hEq ▸ hr)
      rw [if_neg (by simp [hany])]
  · intro hall hdecl
    unfold validatePathParamPresence
    rw [List.append_eq_nil]
    constructor
    · rw [List.filterMap_eq_nil_iff]
      intro l hl
      obtain ⟨r, hr, hEq⟩ := hall l hl
      rw [if_pos (List.any_eq_true.mpr ⟨r, hr, by simp [hEq]⟩)]
    · rw [List.filterMap_eq_nil_iff]
      intro p hp
      rw [if_pos (List.any_eq_true.mpr ⟨_, hdecl p hp, by simp⟩)]

/-- Witness for C8: the well-formed path `/pets/{petId}` with declared
path parameter `petId` produces no presence error. -/
theorem c8_path_param_presence_witness :
    validatePathParamPresence "/pets/{petId}" (pathArtifacts "/pets/{petId}").1 ["petId"] = [] :=
  (c8_path_param_presence "/pets/{petId}" ["petId"]).2.2.2 (by decide) (by decide)

/-- The per-operation parameter loop never emits an overlap
diagnostic. -/
theorem opParamLoop_no_overlap (doc : Document) (opId : String) :
    ∀ (ps : List Parameter) (ptypes : List (String × List String)),
      (opParamLoop doc opId ps ptypes).filter isOverlapErr = [] := by
  intro ps
  induction ps with
  | nil => intro ptypes; rfl
  | cons ppr rest ih =>
    intro ptypes
    rcases href : ppr.ref with _ | r
    · simp only [opParamLoop, href]
      rw [List.filter_append]
      split <;> simp [isOverlapErr, ih]
    · simp only [opParamLoop, href]
      cases hres : resolveParamRef doc r with
      | none => simp [isOverlapErr]
      | some pr =>
        simp only
        rw [List.filter_append]
        split <;> simp [isOverlapErr, ih]

/-- The merged-parameters loop never emits an overlap diagnostic. -/
theorem paramsForLoop_no_overlap (doc : Document) (opId : String) :
    ∀ (ps : List Parameter) (fb : String),
      ((paramsForLoop doc opId ps fb).1).filter isOverlapErr = [] := by
  intro ps
  induction ps with
  | nil => intro fb; rfl
  | cons ppr rest ih =>
    intro fb
    rcases href : ppr.ref with _ | r
    · simp only [paramsForLoop, href]
      rw [List.filter_append]
      split <;> simp [isOverlapErr, ih]
    · simp only [paramsForLoop, href]
      cases hres : resolveParamRef doc r with
      | none => simp [isOverlapErr]
      | some pr =>
        simp only
        rw [List.filter_append]
        split <;> simp [isOverlapErr, ih]

/-- The path-parameter presence check never emits an overlap
diagnostic. -/
theorem presence_no_overlap (path : String) (fp fo : List String) :
    (validatePathParamPresence path fp fo).filter isOverlapErr = [] := by
  rw [List.filter_eq_nil_iff]
  intro e he
  unfold validatePathParamPresence at he
  rw [List.mem_append] at he
  rcases he with h | h <;>
    (rw [List.mem_filterMap] at h
     obtain ⟨a, _, hfa⟩ := h
     split at hfa)
  · cases hfa
  · injection hfa with e1
    simp [← e1, isOverlapErr]
  · cases hfa
  · injection hfa with e1
    simp [← e1, isOverlapErr]

/-- One unfolding step of the per-path loop of `validateParameters`. -/
theorem paramsPathLoop_cons (doc : Document) (m path : String) (op : Operation)
    (rest : List (String × Operation)) (kps : List (String × String)) :
    paramsPathLoop doc m ((path, op) :: rest) kps
      = (match kps.find? (fun kv => kv.1 == (pathArtifacts path).2) with
         | some kv => [Err.pathOverlap path kv.2]
         | none => [])
        ++ opParamLoop doc op.id op.parameters []
        ++ (paramsForLoop doc op.id (doc.paramsForLookup m path) "").1
        ++ validatePathParamPresence path (pathArtifacts path).1
            (paramsForLoop doc op.id (doc.paramsForLookup m path) "").2
        ++ paramsPathLoop doc m rest
            (match kps.find? (fun kv => kv.1 == (pathArtifacts path).2) with
             | some _ => kps
             | none => kps ++ [((pathArtifacts path).2, path)]) := by
  simp only [paramsPathLoop]

/-- C5.  Per HTTP method, two path templates with equal canonical forms
(every parameter segment replaced by `"!"`) produce exactly one
`"path A overlaps with B"` diagnostic, regardless of visiting order;
different canonical forms produce none; and the same canonical path
under two different method entries produces none. -/
theorem c5_canonical_path_overlap (ds : List (String × Schema))
    (prs : List (String × Parameter)) (pf : List ((String × String) × List Parameter))
    (ids : List String) (m m2 p1 p2 : String) (op1 op2 : Operation) :
    (canonicalPath p1 = canonicalPath p2 →
      (validateParameters ⟨ds, prs, [(m, [(p1, op1), (p2, op2)])], pf, ids⟩).filter isOverlapErr
        = [.pathOverlap p2 p1])
    ∧ (canonicalPath p1 ≠ canonicalPath p2 →
      (validateParameters ⟨ds, prs, [(m, [(p1, op1), (p2, op2)])], pf, ids⟩).filter isOverlapErr
        = [])
    ∧ (validateParameters ⟨ds, prs, [(m, [(p1, op1)]), (m2, [(p2, op2)])], pf, ids⟩).filter
        isOverlapErr = [] := by
  refine ⟨?_, ?_, ?_⟩
  · intro h
    have hb : ((pathArtifacts p1).2 == (pathArtifacts p2).2) = true := beq_iff_eq.mpr h
    simp only [validateParameters, paramsMethodLoop, List.append_nil]
    rw [paramsPathLoop_cons, paramsPathLoop_cons]
    simp only [List.find?_nil, List.find?_cons, hb]
    simp [List.filter_append, opParamLoop_no_overlap, paramsForLoop_no_overlap,
      presence_no_overlap, isOverlapErr, paramsPathLoop]
    rw [if_pos (show (pathArtifacts p1).2 = (pathArtifacts p2).2 from h)]
    simp [isOverlapErr]
  · intro h
    have hb : ((pathArtifacts p1).2 == (pathArtifacts p2).2) = false := by
      simp only [beq_eq_false_iff_ne, ne_eq]
      exact h
    simp only [validateParameters, paramsMethodLoop, List.append_nil]
    rw [paramsPathLoop_cons, paramsPathLoop_cons]
    simp only [List.find?_nil, List.find?_cons, hb]
    simp [List.filter_append, opParamLoop_no_overlap, paramsForLoop_no_overlap,
      presence_no_overlap, isOverlapErr, paramsPathLoop]
    rw [if_neg (show ¬(pathArtifacts p1).2 = (pathArtifacts p2).2 from h)]
    simp
  · simp only [validateParameters, paramsMethodLoop, List.append_nil]
    rw [paramsPathLoop_cons, paramsPathLoop_cons]
    simp only [List.find?_nil]
    simp [List.filter_append, opParamLoop_no_overlap, paramsForLoop_no_overlap,
      presence_no_overlap, isOverlapErr, paramsPathLoop]

/-- Witness for C5: `/pets/{a}` and `/pets/{b}` under `get` overlap, in
either visiting order; `/pets/{a}` and `/pets/kittens` do not; and the
same template under two methods does not. -/
theorem c5_canonical_path_overlap_witness :
    ((validateParameters ⟨[], [], [("get", [("/pets/{a}", ⟨"", [], none⟩),
          ("/pets/{b}", ⟨"", [], none⟩)])], [], []⟩).filter isOverlapErr
        = [.pathOverlap "/pets/{b}" "/pets/{a}"])
    ∧ ((validateParameters ⟨[], [], [("get", [("/pets/{b}", ⟨"", [], none⟩),
          ("/pets/{a}", ⟨"", [], none⟩)])], [], []⟩).filter isOverlapErr
        = [.pathOverlap "/pets/{a}" "/pets/{b}"])
    ∧ ((validateParameters ⟨[], [], [("get", [("/pets/{a}", ⟨"", [], none⟩),
          ("/pets/kittens", ⟨"", [], none⟩)])], [], []⟩).filter isOverlapErr = [])
    ∧ ((validateParameters ⟨[], [], [("get", [("/pets/{a}", ⟨"", [], none⟩)]),
          ("post", [("/pets/{b}", ⟨"", [], none⟩)])], [], []⟩).filter isOverlapErr = []) :=
  ⟨(c5_canonical_path_overlap [] [] [] [] "get" "" "/pets/{a}" "/pets/{b}"
      ⟨"", [], none⟩ ⟨"", [], none⟩).1 (by decide),
   (c5_canonical_path_overlap [] [] [] [] "get" "" "/pets/{b}" "/pets/{a}"
      ⟨"", [], none⟩ ⟨"", [], none⟩).1 (by decide),
   (c5_canonical_path_overlap [] [] [] [] "get" "" "/pets/{a}" "/pets/kittens"
      ⟨"", [], none⟩ ⟨"", [], none⟩).2.1 (by decide),
   (c5_canonical_path_overlap [] [] [] [] "get" "post" "/pets/{a}" "/pets/{b}"
      ⟨"", [], none⟩ ⟨"", [], none⟩).2.2⟩

/-- C4.  When the raw document fails the Swagger 2.0 meta-schema,
`Validate` returns exactly those errors and performs none of the later
checks; when reference expansion fails (and the meta-schema passed),
`Validate` returns exactly the expansion error.  In both cases no
diagnostic of the downstream phases (duplicate ids, duplicate
properties, parameters, items, required definitions, samples) appears
in the result. -/
theorem c4_gates_short_circuit (doc : Document) (reMatch : String → String → Bool)
    (dErrs eErrs metaErrs : List Err) (expandErr : Option String) (e0 : String) (fuel : Nat) :
    (metaErrs ≠ [] →
      Validate doc none metaErrs expandErr reMatch dErrs eErrs fuel = .ok metaErrs)
    ∧ Validate doc none [] (some e0) reMatch dErrs eErrs fuel = .ok [.refExpansion e0] := by
  constructor
  · intro h
    have hne : metaErrs.isEmpty = false := by
      cases metaErrs
      · exact absurd rfl h
      · rfl
    simp [Validate, hasErrors, hne]
  · simp [Validate, hasErrors]

/-- Witness for C4: a failing meta-schema result is returned verbatim;
an expansion failure is returned as the only diagnostic. -/
theorem c4_gates_short_circuit_witness :
    Validate emptyDoc none [Err.jsonUnmarshal "meta"] none (fun _ _ => false) [] [] 1 =
      .ok [Err.jsonUnmarshal "meta"] :=
  (c4_gates_short_circuit emptyDoc (fun _ _ => false) [] [] [Err.jsonUnmarshal "meta"]
    none "boom" 1).1 (by decide)

/-- `validateSchemaItems` decides exactly the items-chain violation, and
always reports the same single diagnostic. -/
theorem validateSchemaItems_characterization (pfx opId : String) :
    ∀ sch : Schema, validateSchemaItems pfx opId sch
      = if itemsChainViolation sch then some (.collectionSchema pfx opId) else none := by
  have main : ∀ n : Nat,
      (∀ sch : Schema, sizeOf sch ≤ n →
        validateSchemaItems pfx opId sch
          = if itemsChainViolation sch then some (.collectionSchema pfx opId) else none)
      ∧ (∀ l : List Schema, sizeOf l ≤ n →
        validateSchemaItemsList pfx opId l
          = if itemsChainViolationList l then some (.collectionSchema pfx opId) else none) := by
    intro n
    induction n using Nat.strong_induction_on with
    | _ n ihn =>
      constructor
      · intro sch hle
        obtain ⟨r, ty, allOf, props, pprops, ap, items, ai, req⟩ := sch
        simp only [Schema.mk.sizeOf_spec] at hle
        cases items with
        | none =>
          rw [validateSchemaItems, itemsChainViolation]
          cases hty : ty.contains "array"
          · have hty' : ¬"array" ∈ ty := by simpa using hty
            simp [hty']
          · have hty' : "array" ∈ ty := by simpa using hty
            simp [hty']
        | some p =>
          obtain ⟨osch, schemas⟩ := p
          simp only [Option.some.sizeOf_spec, Prod.mk.sizeOf_spec] at hle
          cases osch with
          | some s =>
            simp only [Option.some.sizeOf_spec] at hle
            rw [validateSchemaItems, itemsChainViolation]
            have hs : sizeOf ([s] : List Schema) < n := by
              simp only [List.cons.sizeOf_spec, List.nil.sizeOf_spec]
              omega
            rw [(ihn _ hs).2 [s] (Nat.le_refl _)]
            simp only [itemsChainViolationList]
            cases hty : ty.contains "array"
            · have hty' : ¬"array" ∈ ty := by simpa using hty
              simp [hty']
            · have hty' : "array" ∈ ty := by simpa using hty
              by_cases hvs : itemsChainViolation s = true <;> simp [hvs, hty']
          | none =>
            rw [validateSchemaItems, itemsChainViolation]
            cases hty : ty.contains "array"
            · have hty' : ¬"array" ∈ ty := by simpa using hty
              simp [hty']
            · have hty' : "array" ∈ ty := by simpa using hty
              cases hlen : schemas.length == 0
              · have hsc : sizeOf schemas < n := by omega
                rw [(ihn _ hsc).2 schemas (Nat.le_refl _)]
                have hlen' : ¬schemas.length = 0 := by simpa using hlen
                by_cases hvl : itemsChainViolationList schemas = true <;>
                  simp [hvl, hty', hlen']
              · have hlen' : schemas.length = 0 := by simpa using hlen
                simp [hty', hlen']
      · intro l hle
        cases l with
        | nil => simp [validateSchemaItemsList, itemsChainViolationList]
        | cons s rest =>
          simp only [List.cons.sizeOf_spec] at hle
          have hs : sizeOf s < n := by omega
          have hr : sizeOf rest < n := by omega
          rw [validateSchemaItemsList, (ihn _ hs).1 s (Nat.le_refl _),
            (ihn _ hr).2 rest (Nat.le_refl _)]
          simp only [itemsChainViolationList]
          by_cases hvs : itemsChainViolation s = true <;>
            by_cases hvr : itemsChainViolationList rest = true <;>
              simp [hvs, hvr]
  intro sch
  exact (main (sizeOf sch)).1 sch (Nat.le_refl _)

/-- The primitive-parameter items loop decides exactly the nested-items
violation, and reports a single diagnostic. -/
theorem primItemsLoop_characterization (name opId : String) :
    ∀ it : PItems, primItemsLoop name opId it
      = if primChainViolation it then [.collectionParam name opId] else [] := by
  have main : ∀ n : Nat, ∀ it : PItems, sizeOf it ≤ n →
      primItemsLoop name opId it
        = if primChainViolation it then [.collectionParam name opId] else [] := by
    intro n
    induction n using Nat.strong_induction_on with
    | _ n ihn =>
      intro it hle
      obtain ⟨ty, items⟩ := it
      simp only [PItems.mk.sizeOf_spec] at hle
      cases items with
      | none =>
        rw [primItemsLoop, primChainViolation]
        cases hty : ty == "array"
        · have hty' : ¬ty = "array" := by simpa using hty
          simp [hty']
        · have hty' : ty = "array" := by simpa using hty
          simp [hty']
      | some c =>
        simp only [Option.some.sizeOf_spec] at hle
        rw [primItemsLoop, primChainViolation]
        cases hty : ty == "array"
        · have hty' : ¬ty = "array" := by simpa using hty
          simp [hty']
        · have hty' : ty = "array" := by simpa using hty
          cases hct : c.type == ""
          · have hc : sizeOf c < n := by omega
            have hct' : ¬c.type = "" := by simpa using hct
            rw [ihn _ hc c (Nat.le_refl _)]
            by_cases hvc : primChainViolation c = true <;> simp [hvc, hty', hct']
          · have hct' : c.type = "" := by simpa using hct
            simp [hty', hct']
  intro it
  exact main (sizeOf it) it (Nat.le_refl _)

/-- An array schema with no `items` at all. -/
def arrayNoItems : Schema := .mk none ["array"] [] [] [] none none none []

/-- An object schema hiding an array-without-items under a property:
§4.D descent would reach it, the items chain does not. -/
def hiddenViolationSchema : Schema :=
  .mk none ["object"] [] [("q", arrayNoItems)] [] none none none []

/-- A body parameter whose schema is `hiddenViolationSchema`. -/
def bodyParamHidden : Parameter := ⟨"p", "body", "", none, some hiddenViolationSchema, none⟩

/-- A document with one operation carrying `bodyParamHidden`. -/
def docHidden : Document :=
  ⟨[], [], [("post", [("/pets", ⟨"op6", [bodyParamHidden], none⟩)])],
    [(("post", "/pets"), [bodyParamHidden])], []⟩

/-- C6 (counterexample).  The body parameter's schema graph contains an
array node without an element type (under `properties.q`, reachable by
the §4.D descent the claim requires), yet `validateItems` reports
nothing: `validateSchemaItems` only descends the `items` chain and
returns at the non-array top level (spec.go:272-273). -/
theorem c6_counterexample :
    validateItems docHidden = .ok []
    ∧ specArrayWithoutItems hiddenViolationSchema = true := by
  constructor
  · have hsch : validateSchemaItems ("body param " ++ goQuote "p") "op6" hiddenViolationSchema
        = none := by
      rw [hiddenViolationSchema, validateSchemaItems]
      simp
    simp [validateItems, itemsMethodLoop, itemsPathLoop, itemsParamsLoop, paramItemsErrors,
      Document.paramsForLookup, docHidden, bodyParamHidden, Parameter.typeName,
      Parameter.itemsTypeName, responsesOf, hsch]
  · simp [specArrayWithoutItems, specArrayWithoutItemsPairs, specArrayWithoutItemsList,
      hiddenViolationSchema, arrayNoItems]

/-- C6 (amended).  The source's items check: a schema of array type must
carry a non-empty `items`, descending only through the items chain
(`Items.Schema` / `Items.Schemas`), never into `properties`, `allOf` or
`additionalProperties`, and reporting at most one diagnostic per body
parameter or response body; primitive (non-body) parameters descend
their nested `items` while the type stays `"array"`; response headers
are checked at the top level only. -/
theorem c6_amended_items_checks :
    (∀ (pfx opId : String) (sch : Schema),
      validateSchemaItems pfx opId sch
        = if itemsChainViolation sch then some (.collectionSchema pfx opId) else none)
    ∧ (∀ (name opId : String) (it : PItems),
      primItemsLoop name opId it
        = if primChainViolation it then [.collectionParam name opId] else [])
    ∧ (∀ (resp : Response) (opId hn : String),
      Err.collectionHeader hn opId ∈ respItemsErrors resp opId ↔
        ∃ hv : Header, (hn, hv) ∈ resp.headers ∧ hv.typeName = "array" ∧ hv.itemsTypeName = "") := by
  refine ⟨fun pfx opId => validateSchemaItems_characterization pfx opId,
    fun name opId => primItemsLoop_characterization name opId, ?_⟩
  intro resp opId hn
  unfold respItemsErrors
  rw [List.mem_append]
  constructor
  · rintro (h | h)
    · rw [List.mem_filterMap] at h
      obtain ⟨kv, hkv, hf⟩ := h
      split at hf
      · rename_i hcond
        injection hf with e
        injection e with e1 e2
        subst e1
        rw [Bool.and_eq_true] at hcond
        exact ⟨kv.2, hkv, by simpa using hcond.1, by simpa using hcond.2⟩
      · cases hf
    · exfalso
      rcases hresp : resp.schema with _ | sch <;> rw [hresp] at h
      · cases h
      · have h' : Err.collectionHeader hn opId ∈
            (validateSchemaItems "response body" opId sch).toList := h
        rw [validateSchemaItems_characterization] at h'
        split at h' <;> simp at h'
  · rintro ⟨hv, hmem, hty, hit⟩
    left
    rw [List.mem_filterMap]
    refine ⟨(hn, hv), hmem, ?_⟩
    rw [if_pos (by simp [hty, hit])]

/-- `refsOf` of a schema with a reference. -/
theorem refsOf_of_ref_some (sch : Schema) (r : String) (h : sch.ref = some r) :
    refsOf sch = [r] := by
  obtain ⟨r', ty, allOf, props, pprops, ap, items, ai, req⟩ := sch
  simp only [Schema.ref] at h
  subst h
  simp [refsOf]

/-- `refsOf` of a schema without a reference. -/
theorem refsOf_of_ref_none (sch : Schema) (h : sch.ref = none) :
    refsOf sch = refsOfList sch.allOf := by
  obtain ⟨r', ty, allOf, props, pprops, ap, items, ai, req⟩ := sch
  simp only [Schema.ref] at h
  subst h
  simp [refsOf, Schema.allOf]

/-- `refsOfList` distributes over the head. -/
theorem refsOfList_cons (c : Schema) (l : List Schema) :
    refsOfList (c :: l) = refsOf c ++ refsOfList l := by
  simp [refsOfList]

/-- A reference of a member schema is a reference of the list. -/
theorem mem_refsOfList_of_mem (q : String) (c : Schema) (l : List Schema)
    (hq : q ∈ refsOf c) (hc : c ∈ l) : q ∈ refsOfList l := by
  induction l with
  | nil => cases hc
  | cons d rest ih =>
    rw [refsOfList_cons, List.mem_append]
    rcases List.mem_cons.mp hc with h | h
    · left
      subst h
      exact hq
    · right
      exact ih h

/-- Every followable reference is in `outRefs`. -/
theorem refsOf_subset_outRefs (sch : Schema) (q : String) (hq : q ∈ refsOf sch) :
    q ∈ outRefs sch := by
  cases hr : sch.ref with
  | some r =>
    rw [refsOf_of_ref_some sch r hr] at hq
    unfold outRefs
    rw [hr, List.mem_append]
    exact Or.inl hq
  | none =>
    rw [refsOf_of_ref_none sch hr] at hq
    unfold outRefs
    rw [hr, List.mem_append]
    exact Or.inr hq

/-- The references of an `allOf` child are in the parent's `outRefs`. -/
theorem mem_outRefs_of_child (sch : Schema) (c : Schema) (q : String)
    (hc : c ∈ sch.allOf) (hq : q ∈ refsOf c) : q ∈ outRefs sch := by
  unfold outRefs
  rw [List.mem_append]
  exact Or.inr (mem_refsOfList_of_mem q c sch.allOf hq hc)

/-- A successful schema-reference resolution comes from a definition
whose pointer is the reference. -/
theorem resolveSchemaRef_inv (defs : List (String × Schema)) (r : String) (sch : Schema)
    (h : resolveSchemaRef defs r = some sch) :
    ∃ kv, kv ∈ defs ∧ defPointer kv.1 = r ∧ kv.2 = sch := by
  unfold resolveSchemaRef at h
  cases hfind : defs.find? (fun kv => defPointer kv.1 == r) with
  | none => rw [hfind] at h; cases h
  | some kv =>
    rw [hfind] at h
    refine ⟨kv, List.mem_of_find?_eq_some hfind, ?_, by simpa using h⟩
    simpa using List.find?_some hfind

/-- If a larger fuel agrees with a smaller one wherever the smaller does
not run out, the same holds for the `allOf` fold. -/
theorem vspnFold_congr
    (f g : String → Schema → List String → Except Halt (List DupProp × List String))
    (hfg : ∀ nm sch kn, f nm sch kn ≠ .error .fuelOut → g nm sch kn = f nm sch kn) :
    ∀ (l : List Schema) (nm : String) (kn : List String),
      vspnFold f nm l kn ≠ .error .fuelOut → vspnFold g nm l kn = vspnFold f nm l kn := by
  intro l
  induction l with
  | nil => intro nm kn _; rfl
  | cons c rest ih =>
    intro nm kn h
    simp only [vspnFold] at h ⊢
    cases hc : f nm c kn with
    | error e =>
      simp only [hc] at h
      simp only [hfg nm c kn (by rw [hc]; exact fun hEq => h (by injection hEq with e1; rw [e1])), hc]
    | ok p =>
      obtain ⟨dups, kn2⟩ := p
      simp only [hc] at h
      simp only [hfg nm c kn (by rw [hc]; simp), hc]
      cases hrest : vspnFold f nm rest kn2 with
      | error e =>
        simp only [hrest] at h
        simp only [ih nm kn2
          (by rw [hrest]; exact fun hEq => h (by injection hEq with e1; rw [e1])), hrest]
      | ok q =>
        simp only [ih nm kn2 (by rw [hrest]; simp), hrest]

/-- Fuel monotonicity of the property-name walk: once the walk completes
(or panics) at some fuel, any larger fuel gives the same result. -/
theorem vspn_mono (defs : List (String × Schema)) :
    ∀ n m : Nat, n ≤ m →
      ∀ (nm : String) (sch : Schema) (kn : List String),
        vspn defs n nm sch kn ≠ .error .fuelOut →
          vspn defs m nm sch kn = vspn defs n nm sch kn := by
  intro n
  induction n with
  | zero =>
    intro m _ nm sch kn h
    exact absurd rfl h
  | succ n ih =>
    intro m hnm nm sch kn h
    obtain ⟨m', rfl⟩ : ∃ m', m = m' + 1 := ⟨m - 1, by omega⟩
    have hnm' : n ≤ m' := by omega
    cases href : sch.ref with
    | some r =>
      cases hres : resolveSchemaRef defs r with
      | none => simp [vspn, href, hres]
      | some schc =>
        by_cases hemp : schc.allOf.isEmpty = true
        · simp [vspn, href, hres, hemp]
        · simp only [vspn, href, hres, hemp, if_false, Bool.false_eq_true] at h ⊢
          exact vspnFold_congr (vspn defs n) (vspn defs m')
            (fun nm' sch' kn' h' => ih m' hnm' nm' sch' kn' h') schc.allOf r kn h
    | none =>
      by_cases hemp : sch.allOf.isEmpty = true
      · simp [vspn, href, hemp]
      · simp only [vspn, href, hemp, if_false, Bool.false_eq_true] at h ⊢
        exact vspnFold_congr (vspn defs n) (vspn defs m')
          (fun nm' sch' kn' h' => ih m' hnm' nm' sch' kn' h') sch.allOf nm kn h

/-- If every child of the fold terminates for some fuel, the whole fold
terminates for some fuel. -/
theorem vspnFold_total (defs : List (String × Schema)) :
    ∀ l : List Schema,
      (∀ c ∈ l, ∀ (nm : String) (kn : List String),
        ∃ n, vspn defs n nm c kn ≠ .error .fuelOut) →
      ∀ (nm : String) (kn : List String),
        ∃ n, vspnFold (vspn defs n) nm l kn ≠ .error .fuelOut := by
  intro l
  induction l with
  | nil =>
    intro _ nm kn
    refine ⟨1, ?_⟩
    rw [vspnFold]
    simp
  | cons c rest ih =>
    intro hl nm kn
    obtain ⟨n1, h1⟩ := hl c (List.mem_cons_self c rest) nm kn
    cases hc : vspn defs n1 nm c kn with
    | error e =>
      refine ⟨n1, ?_⟩
      rw [vspnFold, hc]
      rw [hc] at h1
      exact h1
    | ok p =>
      obtain ⟨dups, kn2⟩ := p
      obtain ⟨n2, h2⟩ := ih (fun c' hc' => hl c' (List.mem_cons_of_mem c hc')) nm kn2
      have hg : vspnFold (vspn defs (Nat.max n1 n2)) nm rest kn2
          = vspnFold (vspn defs n2) nm rest kn2 :=
        vspnFold_congr (vspn defs n2) (vspn defs (Nat.max n1 n2))
          (fun nm' sch' kn' h' =>
            vspn_mono defs n2 (Nat.max n1 n2) (Nat.le_max_right _ _) nm' sch' kn' h')
          rest nm kn2 h2
      refine ⟨Nat.max n1 n2, ?_⟩
      simp only [vspnFold]
      rw [vspn_mono defs n1 (Nat.max n1 n2) (Nat.le_max_left _ _) nm c kn (by rw [hc]; simp)]
      simp only [hc]
      rw [hg]
      cases hr : vspnFold (vspn defs n2) nm rest kn2 with
      | error e =>
        simp only [hr]
        rw [hr] at h2
        exact fun hEq => h2 (by injection hEq with e1; rw [e1])
      | ok q => simp [hr]

/-- Totality of the property-name walk on documents whose reference
graph admits a strictly decreasing ranking: with enough fuel the walk
never runs out (it completes or panics on an unresolvable reference). -/
theorem vspn_total (defs : List (String × Schema)) (rank : String → Nat)
    (hAcyc : ∀ kv ∈ defs, ∀ q ∈ outRefs kv.2, rank q < rank (defPointer kv.1)) :
    ∀ B : Nat, ∀ sch : Schema, (∀ q ∈ refsOf sch, rank q < B) →
      ∀ (nm : String) (kn : List String), ∃ n, vspn defs n nm sch kn ≠ .error .fuelOut := by
  intro B
  induction B using Nat.strong_induction_on with
  | _ B ihB =>
    suffices aux : ∀ s : Nat, ∀ sch : Schema, sizeOf sch < s →
        (∀ q ∈ refsOf sch, rank q < B) →
        ∀ (nm : String) (kn : List String), ∃ n, vspn defs n nm sch kn ≠ .error .fuelOut by
      intro sch h nm kn
      exact aux (sizeOf sch + 1) sch (Nat.lt_succ_self _) h nm kn
    intro s
    induction s with
    | zero =>
      intro sch hsize
      exact absurd hsize (Nat.not_lt_zero _)
    | succ s ihs =>
      intro sch hsize hrefs nm kn
      cases hr : sch.ref with
      | some r =>
        cases hres : resolveSchemaRef defs r with
        | none =>
          refine ⟨1, ?_⟩
          simp [vspn, hr, hres]
        | some schc =>
          by_cases hemp : schc.allOf.isEmpty = true
          · refine ⟨1, ?_⟩
            simp [vspn, hr, hres, hemp]
          · have hrB : rank r < B := by
              apply hrefs
              rw [refsOf_of_ref_some sch r hr]
              exact List.mem_singleton.mpr rfl
            obtain ⟨kv, hkv, hkey, hbody⟩ := resolveSchemaRef_inv defs r schc hres
            have hchild : ∀ c ∈ schc.allOf, ∀ q ∈ refsOf c, rank q < rank r := by
              intro c hc q hq
              have hmem : q ∈ outRefs schc := mem_outRefs_of_child schc c q hc hq
              have := hAcyc kv hkv q (by rw [hbody]; exact hmem)
              rwa [hkey] at this
            have hl : ∀ c ∈ schc.allOf, ∀ (nm' : String) (kn' : List String),
                ∃ n, vspn defs n nm' c kn' ≠ .error .fuelOut := by
              intro c hc nm' kn'
              exact ihB (rank r) hrB c (hchild c hc) nm' kn'
            obtain ⟨n, hn⟩ := vspnFold_total defs schc.allOf hl r kn
            refine ⟨n + 1, ?_⟩
            simp only [vspn, hr, hres, hemp, if_false, Bool.false_eq_true]
            exact hn
      | none =>
        by_cases hemp : sch.allOf.isEmpty = true
        · refine ⟨1, ?_⟩
          simp [vspn, hr, hemp]
        · have hchild : ∀ c ∈ sch.allOf, ∀ q ∈ refsOf c, rank q < B := by
            intro c hc q hq
            apply hrefs
            rw [refsOf_of_ref_none sch hr]
            exact mem_refsOfList_of_mem q c sch.allOf hq hc
          have hsz : ∀ c ∈ sch.allOf, sizeOf c < s := by
            intro c hc
            have h1 : sizeOf c < sizeOf sch.allOf := List.sizeOf_lt_of_mem hc
            have h2 : sizeOf sch.allOf < sizeOf sch := by
              obtain ⟨r', ty, allOf, props, pprops, ap, items, ai, req⟩ := sch
              simp only [Schema.allOf, Schema.mk.sizeOf_spec]
              omega
            omega
          have hl : ∀ c ∈ sch.allOf, ∀ (nm' : String) (kn' : List String),
              ∃ n, vspn defs n nm' c kn' ≠ .error .fuelOut := by
            intro c hc nm' kn'
            exact ihs c (hsz c hc) (hchild c hc) nm' kn'
          obtain ⟨n, hn⟩ := vspnFold_total defs sch.allOf hl nm kn
          refine ⟨n + 1, ?_⟩
          simp only [vspn, hr, hemp, if_false, Bool.false_eq_true]
          exact hn

/-- On the self-cyclic definition `A`, the property-name walk runs out
of fuel for every fuel: the source would recurse forever. -/
theorem vspn_cyc_child_diverges :
    ∀ (n : Nat) (nm : String) (kn : List String),
      vspn cycDefs n nm (childRef "#/definitions/A") kn = .error .fuelOut := by
  intro n
  induction n with
  | zero => intro nm kn; rfl
  | succ n ih =>
    intro nm kn
    rw [show vspn cycDefs (n + 1) nm (childRef "#/definitions/A") kn
        = vspnFold (vspn cycDefs n) "#/definitions/A" [childRef "#/definitions/A"] kn from rfl]
    simp only [vspnFold, ih]

/-- C10.  `validateSchemaPropertyNames` carries no visited-pointer set:
(a) on every document whose `allOf`/`$ref` reference graph is acyclic
(witnessed by a ranking that decreases along reference edges) the walk
terminates — some fuel suffices; (b) acyclicity is a genuine
precondition — on the self-cyclic definition `A` the walk runs out of
every fuel; and (c) `validateDuplicatePropertyNames` establishes the
precondition by running the circular-ancestry check first and skipping
the property-name walk on a detected cycle: on the same cyclic document
it terminates with just the circular-ancestry error. -/
theorem c10_property_walk_termination :
    (∀ defs : List (String × Schema), Acyclic defs →
      ∀ (k : String) (sch : Schema), resolveSchemaRef defs (defPointer k) = some sch →
        ∃ n, vspn defs n k sch [] ≠ .error .fuelOut)
    ∧ (∀ n : Nat, vspn cycDefs n "A" bodyA [] = .error .fuelOut)
    ∧ (∀ n : Nat, 2 ≤ n →
        validateDuplicatePropertyNames cycDefs n =
          .ok [.circularAncestry "A" ["#/definitions/A"]]) := by
  refine ⟨?_, ?_, ?_⟩
  · rintro defs ⟨rank, hAcyc⟩ k sch hres
    obtain ⟨kv, hkv, hkey, hbody⟩ := resolveSchemaRef_inv defs (defPointer k) sch hres
    have hb : ∀ q ∈ refsOf sch, rank q < rank (defPointer k) := by
      intro q hq
      have h2 : q ∈ outRefs sch := refsOf_subset_outRefs sch q hq
      have := hAcyc kv hkv q (by rw [hbody]; exact h2)
      rwa [hkey] at this
    exact vspn_total defs rank hAcyc (rank (defPointer k)) sch hb k []
  · intro n
    cases n with
    | zero => rfl
    | succ n =>
      rw [show vspn cycDefs (n + 1) "A" bodyA []
          = vspnFold (vspn cycDefs n) "A" [childRef "#/definitions/A"] [] from rfl]
      simp only [vspnFold, vspn_cyc_child_diverges]
  · intro n hn
    obtain ⟨m, rfl⟩ : ∃ m, n = m + 2 := ⟨n - 2, by omega⟩
    rfl

/-- Witness for C10: on the acyclic document `{Pet ⊂ Base}` the walk
terminates for some fuel. -/
theorem c10_property_walk_termination_witness :
    ∃ n, vspn acyclicDefs n "Pet" bodyPet [] ≠ .error .fuelOut :=
  c10_property_walk_termination.1 acyclicDefs
    ⟨fun p => if p = "#/definitions/Base" then 0 else 1, by
      intro kv hkv q hq
      fin_cases hkv
      · simp only [outRefs, refsOf, refsOfList, bodyPet, childRef, Schema.ref,
          Schema.allOf, List.append_nil, List.nil_append, List.mem_singleton] at hq
        subst hq
        decide
      · simp only [outRefs, refsOf, refsOfList, bodyBase, Schema.ref, Schema.allOf,
          List.append_nil, List.not_mem_nil] at hq⟩
    "Pet" bodyPet rfl

end GoSwagger
